import Mathlib

/-!
# Verification of the segmented odd-only Sieve of Eratosthenes

Shallow embedding of `src/python/prime_generator.py`.

Modelling conventions:

* Python `int` values that are provably non-negative are `Nat`; the public
  bounds (which may be negative) are `Int`.
* A `bytearray` holding only the flag bytes `0`/`1` is modelled as the bits
  of a single `Nat`: flag byte `i` of the buffer is bit `i` of the number.
  `is_prime[:seg_len] = b'\x01' * seg_len` becomes `(1 <<< seg_len) - 1`,
  the bulk slice assignment `view[start::step] = b'\x00' * count` becomes
  `sliceAssignZero` (clearing the same index set), and the
  `bytes.find(1, idx+1)` extraction loop becomes the linear scan `scanBits`.
* Exceptions become `Except PyError`: `ValueError` for a negative bound,
  `ZeroDivisionError` for the unguarded `// segment_size` and
  `// num_workers` divisions.
* Progress reporting is modelled observably: the sequential driver also
  returns the list of arguments passed to the callback, the parallel worker
  also returns how often it incremented the shared counter; a `Bool`
  argument says whether a callback / counter was supplied.
* The process pool runs workers to completion and collects their results in
  argument order; `heapq.merge` is modelled as an iterated two-way merge of
  the (already sorted) worker result lists.
-/

set_option maxRecDepth 40000

/-- Error conditions of the Python code: `ValueError` raised for a negative
bound, `ZeroDivisionError` raised by an unguarded integer division by zero. -/
inductive PyError where
  | valueError
  | zeroDivisionError
deriving DecidableEq

/-- Threshold above which `generate_primes` auto-selects the segmented sieve
(source line 26). -/
def SEGMENTED_SIEVE_THRESHOLD : Int := 10000000

/-- Threshold above which `generate_primes` may use the parallel sieve
(source line 27). -/
def PARALLEL_SIEVE_THRESHOLD : Int := 500000000

/-- Default segment size of the segmented sieves (source line 28). -/
def DEFAULT_SEGMENT_SIZE : Nat := 1000000

/-- Fuelled climb computing the integer square root: increase `acc` while
`(acc+1)^2` still fits below `n`. -/
def isqrtClimb (n : Nat) : Nat → Nat → Nat
  | 0, acc => acc
  | f+1, acc => if (acc + 1) * (acc + 1) ≤ n then isqrtClimb n f (acc + 1) else acc

/-- Model of Python `math.isqrt`: the floor of the square root. -/
def isqrt (n : Nat) : Nat := isqrtClimb n n 0

/-- Bit mask with `count` one-bits spaced `step` apart, starting at bit 0:
the geometric series `1 + 2^step + ... + 2^((count-1)*step)` in closed form. -/
def strideMask (count step : Nat) : Nat :=
  ((1 <<< (count * step)) - 1) / ((1 <<< step) - 1)

/-- Model of the bulk slice assignment `view[start::step] = b'\x00' * count`
on a flag buffer of `len` bytes (bits here), with Python's element count
`count = (len - start + step - 1) // step`: every `step`-th flag from
`start` on is cleared, all other flags are kept. -/
def sliceAssignZero (buf len start step : Nat) : Nat :=
  let count := (len - start + step - 1) / step
  buf &&& (((1 <<< len) - 1) ^^^ (strideMask count step <<< start))

/-- Model of the extraction loop `idx = data.find(1, idx + 1)` over a flag
buffer: scan the bits from the low end, emitting `base + i` for every set
bit `i`.  The `data = 0` test models `find` returning `-1`. -/
def scanBits : Nat → Nat → Nat → List Nat
  | 0, _, _ => []
  | f+1, data, base =>
    if data = 0 then []
    else if data % 2 = 1 then base :: scanBits f (data / 2) (base + 1)
    else scanBits f (data / 2) (base + 1)

/-- Marking loop of `sieve_of_eratosthenes` (source lines 182-193): for each
odd candidate whose flag is still set, clear the flags of its odd multiples
from `current^2` on, stepping `current` positions in index space. -/
def sieveLoop (size : Nat) : List Nat → Nat → Nat
  | [], sieve => sieve
  | current :: rest, sieve =>
    let sieve2 :=
      if Nat.testBit sieve ((current - 3) / 2) then
        sliceAssignZero sieve size ((current * current - 3) / 2) current
      else sieve
    sieveLoop size rest sieve2

/-- The classic sieve's buffer size `(n - 3 + 1) // 2` (source line 176):
the number of odd values in `[3, n)`. -/
def sieveSize (n : Nat) : Nat := (n - 3 + 1) / 2

/-- The classic sieve's buffer after the whole marking loop (source lines
177-193): candidates run over `range(3, isqrt(n) + 1, 2)`, which has
`(isqrt(n) - 1) // 2` elements. -/
def sieveBuf (n : Nat) : Nat :=
  sieveLoop (sieveSize n) (List.range' 3 ((isqrt n - 1) / 2) 2)
    ((1 <<< sieveSize n) - 1)

/-- Core of `sieve_of_eratosthenes` (source lines 148-206) for a
non-negative bound: odd-only sieve, index `i` representing the number
`2*i + 3`. -/
def sieve_of_eratosthenes_nat (n : Nat) : List Nat :=
  if n ≤ 2 then []
  else if n ≤ 3 then [2]
  else 2 :: (scanBits (sieveSize n) (sieveBuf n) 0).map (fun idx => 2 * idx + 3)

/-- `sieve_of_eratosthenes` with its argument check (source lines 165-169):
raises `ValueError` exactly when the bound is negative. -/
def sieve_of_eratosthenes (n : Int) : Except PyError (List Nat) :=
  if n < 0 then .error .valueError
  else .ok (sieve_of_eratosthenes_nat n.toNat)

/-- First odd multiple of the base prime `p` to mark in a segment starting
at `odd_low` (source lines 73-78): the first multiple of `p` at least
`odd_low`, raised to `p*p` if below it, bumped by `p` if even. -/
def segStart (odd_low p : Nat) : Nat :=
  let start0 := ((odd_low + p - 1) / p) * p
  let start1 := if start0 < p * p then p * p else start0
  if start1 % 2 = 0 then start1 + p else start1

/-- Marking loop of `_sieve_segment_odd_only` (source lines 72-87): for each
base prime, find its first in-range odd multiple `segStart`, skip the prime
if that multiple is out of range, and otherwise clear every `p`-th flag from
its buffer index on. -/
def segMarkLoop (odd_low high seg_len : Nat) : List Nat → Nat → Nat
  | [], buf => buf
  | p :: rest, buf =>
    let buf2 :=
      if high ≤ segStart odd_low p then buf
      else sliceAssignZero buf seg_len ((segStart odd_low p - odd_low) / 2) p
    segMarkLoop odd_low high seg_len rest buf2

/-- The segment engine `_sieve_segment_odd_only` (source lines 31-99):
emits 2 when it falls into `[low, high)`, then sieves the odd numbers of
`[odd_low, high)` against `base_primes` in a freshly reset flag buffer and
extracts the survivors in increasing order.  The reusable byte buffer of the
source is reset to ones up to `seg_len` on every call and never read beyond
`seg_len`, so it is modelled by a fresh buffer. -/
def _sieve_segment_odd_only (low high : Nat) (base_primes : List Nat) : List Nat :=
  let primes := if low ≤ 2 ∧ 2 < high then [2] else []
  let odd_low0 := max low 3
  let odd_low := if odd_low0 % 2 = 0 then odd_low0 + 1 else odd_low0
  if high ≤ odd_low then primes
  else
    let seg_len := (high - odd_low + 1) / 2
    if seg_len = 0 then primes
    else
      let buf := segMarkLoop odd_low high seg_len base_primes ((1 <<< seg_len) - 1)
      primes ++ (scanBits seg_len buf 0).map (fun idx => odd_low + 2 * idx)

/-- The odd base primes shared by both segmented drivers (source lines
236-239 and 295-298): all primes up to `isqrt n` with 2 filtered out. -/
def base_primes_odd (n : Nat) : List Nat :=
  (sieve_of_eratosthenes_nat (isqrt n + 1)).filter (fun p => 2 < p)

/-- Segment loop of `segmented_sieve` (source lines 247-260), carrying the
accumulated primes and the list of arguments passed to the progress
callback: segments whose `high` is at most 2 are skipped but still reported;
the callback receives the 1-based segment index. -/
def segLoop (n segment_size : Nat) (bp : List Nat) (hasCb : Bool) :
    List Nat → List Nat × List Nat → List Nat × List Nat
  | [], st => st
  | seg_idx :: rest, st =>
    let low := seg_idx * segment_size
    let high := min (low + segment_size) n
    let st2 :=
      if high ≤ 2 then
        (st.1, if hasCb then st.2 ++ [seg_idx + 1] else st.2)
      else
        (st.1 ++ _sieve_segment_odd_only low high bp,
          if hasCb then st.2 ++ [seg_idx + 1] else st.2)
    segLoop n segment_size bp hasCb rest st2

/-- `segmented_sieve` (source lines 209-262).  Returns the primes below `n`
together with the callback-argument trace; fails with `ValueError` for a
negative bound and with `ZeroDivisionError` when `n > 2` and
`segment_size = 0` (the unguarded `//` at source line 241). -/
def segmented_sieve (n : Int) (segment_size : Nat) (hasCb : Bool) :
    Except PyError (List Nat × List Nat) :=
  if n < 0 then .error .valueError
  else if n ≤ 2 then .ok ([], [])
  else
    let nn := n.toNat
    if segment_size = 0 then .error .zeroDivisionError
    else
      let segments := (nn + segment_size - 1) / segment_size
      .ok (segLoop nn segment_size (base_primes_odd nn) hasCb
        (List.range segments) ([], []))

/-- Chunk loop of `_worker_process_segment_chunk` (source lines 128-144),
carrying the worker's primes and how often it incremented the shared
progress counter: segments with `high ≤ 2` are skipped but still counted. -/
def workerLoop (n segment_size : Nat) (bp : List Nat) (hasCounter : Bool) :
    List Nat → List Nat × Nat → List Nat × Nat
  | [], st => st
  | seg_idx :: rest, st =>
    let low := seg_idx * segment_size
    let high := min (low + segment_size) n
    let st2 :=
      if high ≤ 2 then
        (st.1, if hasCounter then st.2 + 1 else st.2)
      else
        (st.1 ++ _sieve_segment_odd_only low high bp,
          if hasCounter then st.2 + 1 else st.2)
    workerLoop n segment_size bp hasCounter rest st2

/-- `_worker_process_segment_chunk` (source lines 102-145): one worker's run
over the contiguous segment index span `[start_seg, end_seg)`. -/
def _worker_process_segment_chunk (start_seg end_seg n segment_size : Nat)
    (base_primes : List Nat) (hasCounter : Bool) : List Nat × Nat :=
  workerLoop n segment_size base_primes hasCounter
    (List.range' start_seg (end_seg - start_seg)) ([], 0)

/-- Fuelled stable two-way merge of sorted lists. -/
def merge2 : Nat → List Nat → List Nat → List Nat
  | 0, xs, ys => xs ++ ys
  | _+1, [], ys => ys
  | _+1, x :: xs, [] => x :: xs
  | f+1, x :: xs, y :: ys =>
    if x ≤ y then x :: merge2 f xs (y :: ys) else y :: merge2 f (x :: xs) ys

/-- Model of `heapq.merge(*results)` (source line 353): k-way merge of the
per-worker sorted lists, realised as an iterated two-way merge. -/
def heapq_merge (ls : List (List Nat)) : List Nat :=
  ls.foldr (fun l acc => merge2 (l.length + acc.length) l acc) []

/-- The chunk list built by the dispatch loop of `parallel_segmented_sieve`
(source lines 336-343): worker `i` gets `[i*chunk_size,
min((i+1)*chunk_size, segments))`, and the loop breaks at the first worker
whose start index reaches `segments`. -/
def workerChunks (segments chunk_size num_workers : Nat) : List (Nat × Nat) :=
  ((List.range num_workers).map
    (fun i => (i * chunk_size, min (i * chunk_size + chunk_size) segments))).takeWhile
    (fun se => se.1 < segments)

/-- Default worker count: `max(1, cpu_count() - 1)` (line 302). -/
def numWorkersDefault (cpu_count : Nat) : Nat := max 1 (cpu_count - 1)

/-- The main work of `parallel_segmented_sieve` once the worker count `nw`
is fixed: chunking (line 333), the per-chunk worker runs, and the final
`heapq.merge` (line 353) together with the summed progress increments. -/
def parallelRun (nn segment_size nw : Nat) (hasCb : Bool) :
    List Nat × Nat :=
  let segments := (nn + segment_size - 1) / segment_size
  let chunk_size := (segments + nw - 1) / nw
  let results := (workerChunks segments chunk_size nw).map
    (fun se => _worker_process_segment_chunk se.1 se.2 nn segment_size
      (base_primes_odd nn) hasCb)
  (heapq_merge (results.map Prod.fst), (results.map Prod.snd).sum)

/-- `parallel_segmented_sieve` (source lines 265-363).  `cpu_count` stands
for `multiprocessing.cpu_count()`; `num_workers = none` is Python's `None`.
Returns the merged primes together with the total number of shared-counter
increments performed by the workers; fails with `ValueError` for a negative
bound and with `ZeroDivisionError` when `n > 2` and `segment_size = 0`
(source line 300) or the effective worker count is 0 (source line 333). -/
def parallel_segmented_sieve (n : Int) (num_workers : Option Nat)
    (cpu_count segment_size : Nat) (hasCb : Bool) :
    Except PyError (List Nat × Nat) :=
  if n < 0 then .error .valueError
  else if n ≤ 2 then .ok ([], 0)
  else
    let nn := n.toNat
    if segment_size = 0 then .error .zeroDivisionError
    else
      let segments := (nn + segment_size - 1) / segment_size
      let nw := min (match num_workers with
        | none => numWorkersDefault cpu_count
        | some k => k) segments
      if nw = 0 then .error .zeroDivisionError
      else .ok (parallelRun nn segment_size nw hasCb)

/-- Integer-typed `segmented_sieve` exactly as the source declares it
(`segment_size: int`, line 211).  A zero `segment_size` raises
`ZeroDivisionError` at the segment-count division (line 241); a negative
one passes that floor division and then raises `ValueError` at
`bytearray(segment_size)` (line 245); a positive one behaves as the
natural-number core `segmented_sieve`. -/
def segmented_sieve_int (n segment_size : Int) (hasCb : Bool) :
    Except PyError (List Nat × List Nat) :=
  if n < 0 then .error .valueError
  else if n ≤ 2 then .ok ([], [])
  else if segment_size = 0 then .error .zeroDivisionError
  else if segment_size < 0 then .error .valueError
  else segmented_sieve n segment_size.toNat hasCb

/-- Integer-typed `parallel_segmented_sieve` exactly as the source declares
it (`num_workers: Optional[int]`, `segment_size: int`, lines 267-268).
`segments` is Python's floor division (line 300, `Int.fdiv`); an effective
worker count of 0 raises `ZeroDivisionError` at the chunk-size division
(line 333); a negative one survives that division (floor semantics) and
the empty dispatch loop, then raises `ValueError` at
`Pool(processes=num_workers)` (line 348), which the `except` tuple at line
354 does not catch.  A negative `segment_size` forces `segments ≤ 0` and
hence a non-positive effective count, so it ends in one of those two
errors; with positive sizes and counts the call behaves as the
natural-number core. -/
def parallel_segmented_sieve_int (n : Int) (num_workers : Option Int)
    (cpu_count : Nat) (segment_size : Int) (hasCb : Bool) :
    Except PyError (List Nat × Nat) :=
  if n < 0 then .error .valueError
  else if n ≤ 2 then .ok ([], 0)
  else if segment_size = 0 then .error .zeroDivisionError
  else
    let segments : Int := Int.fdiv (n + segment_size - 1) segment_size
    let nw : Int := min (match num_workers with
      | none => ((numWorkersDefault cpu_count : Nat) : Int)
      | some k => k) segments
    if nw = 0 then .error .zeroDivisionError
    else if nw < 0 then .error .valueError
    else .ok (parallelRun n.toNat segment_size.toNat nw.toNat hasCb)

/-- The `force_algorithm` argument of `generate_primes`: Python strings
`"classic"`, `"segmented"`, `"parallel"`.  Any other string behaves like
`classic` in the source's selection logic, so the enumeration is lossless. -/
inductive ForceAlgorithm where
  | classic
  | segmented
  | parallel
deriving DecidableEq

/-- `generate_primes` (source lines 431-515): validates the bound, selects
classic / sequential segmented / parallel segmented from the thresholds and
the `force_algorithm` override, and wires the progress callback
(`show_progress`) into the selected path.  `cpu_count` parametrises the
machine-dependent `multiprocessing.cpu_count()`. -/
def generate_primes (n : Int) (show_progress parallel : Bool)
    (force_algorithm : Option ForceAlgorithm) (cpu_count : Nat) :
    Except PyError (List Nat) :=
  if n < 0 then .error .valueError
  else if n ≤ 2 then .ok []
  else
    let use_segmented := force_algorithm = some .segmented ∨
      force_algorithm = some .parallel ∨
      (force_algorithm = none ∧ SEGMENTED_SIEVE_THRESHOLD ≤ n)
    let use_parallel := force_algorithm = some .parallel ∨
      (parallel ∧ PARALLEL_SIEVE_THRESHOLD ≤ n)
    if use_segmented then
      if use_parallel then
        (parallel_segmented_sieve n none cpu_count DEFAULT_SEGMENT_SIZE
          show_progress).map Prod.fst
      else
        (segmented_sieve n DEFAULT_SEGMENT_SIZE show_progress).map Prod.fst
    else
      .ok (sieve_of_eratosthenes_nat n.toNat)

/-- Geometric series `1 + 2^step + ... + 2^((m-1)*step)`, the recursive
counterpart of `strideMask` used to reason about it. -/
def geomAux (step : Nat) : Nat → Nat
  | 0 => 0
  | m+1 => geomAux step m + (1 <<< (m * step))

/-- Number of set flags in one 64-bit word of a buffer, by repeatedly
clearing the lowest set bit. -/
def popWord : Nat → Nat → Nat
  | 0, _ => 0
  | f+1, w => if w = 0 then 0 else 1 + popWord f (w &&& (w - 1))

/-- Number of set flags in a buffer, word by word. -/
def popLoop : Nat → Nat → Nat → Nat
  | 0, _, acc => acc
  | f+1, data, acc =>
    if data = 0 then acc
    else popLoop f (data >>> 64) (acc + popWord 64 (data % (1 <<< 64)))

/-- Number of set flags in a buffer of `width` flag bits. -/
def popCount (width data : Nat) : Nat := popLoop (width / 64 + 1) data 0

/-! ## The integer square root -/

theorem isqrtClimb_spec (n : Nat) : ∀ f acc, acc * acc ≤ n →
    n < (acc + f + 1) * (acc + f + 1) →
    isqrtClimb n f acc * isqrtClimb n f acc ≤ n ∧
      n < (isqrtClimb n f acc + 1) * (isqrtClimb n f acc + 1) := by
  intro f
  induction f with
  | zero =>
    intro acc h1 h2
    exact ⟨by simpa [isqrtClimb] using h1, by simpa [isqrtClimb] using h2⟩
  | succ f ih =>
    intro acc h1 h2
    by_cases h : (acc + 1) * (acc + 1) ≤ n
    · have h2' : n < (acc + 1 + f + 1) * (acc + 1 + f + 1) := by
        have e : acc + 1 + f + 1 = acc + (f + 1) + 1 := by omega
        rw [e]; exact h2
      simpa [isqrtClimb, h] using ih (acc + 1) h h2'
    · have hn : n < (acc + 1) * (acc + 1) := by omega
      simpa [isqrtClimb, h] using ⟨h1, hn⟩

theorem isqrt_spec (n : Nat) :
    isqrt n * isqrt n ≤ n ∧ n < (isqrt n + 1) * (isqrt n + 1) := by
  refine isqrtClimb_spec n n 0 (by simp) ?_
  have : n < n + 1 := Nat.lt_succ_self n
  calc n < n + 1 := this
    _ ≤ (n + 1) * (n + 1) := Nat.le_mul_of_pos_left _ (by omega)
    _ = (0 + n + 1) * (0 + n + 1) := by ring

theorem isqrt_eq_sqrt (n : Nat) : isqrt n = Nat.sqrt n := by
  have h := isqrt_spec n
  have h1 : isqrt n ≤ Nat.sqrt n := Nat.le_sqrt.mpr h.1
  have h2 : Nat.sqrt n < isqrt n + 1 := Nat.sqrt_lt.mpr h.2
  omega

/-! ## Bit-level characterisation of the buffer primitives -/

theorem geomAux_lt (step m : Nat) (hs : 1 ≤ step) :
    geomAux step m < 2 ^ (m * step) := by
  induction m with
  | zero => simp [geomAux]
  | succ m ih =>
    have hstep : 2 ^ (m * step) * 2 ≤ 2 ^ ((m + 1) * step) := by
      have e : (m + 1) * step = m * step + step := by ring
      rw [e, pow_add]
      have h2 : (2:Nat) ^ 1 ≤ 2 ^ step := Nat.pow_le_pow_right (by omega) hs
      have h2' : (2:Nat) ≤ 2 ^ step := by simpa using h2
      exact Nat.mul_le_mul_left (2 ^ (m * step)) h2'
    have e2 : geomAux step (m + 1) = geomAux step m + 2 ^ (m * step) := by
      simp [geomAux, Nat.shiftLeft_eq]
    omega

theorem geomAux_mul (step m : Nat) :
    (2 ^ step - 1) * geomAux step m = 2 ^ (m * step) - 1 := by
  induction m with
  | zero => simp [geomAux]
  | succ m ih =>
    have h1 : (1:Nat) ≤ 2 ^ (m * step) := Nat.one_le_two_pow
    have h2 : (1:Nat) ≤ 2 ^ step := Nat.one_le_two_pow
    have hmul : 2 ^ step * 2 ^ (m * step) = 2 ^ ((m + 1) * step) := by
      rw [← pow_add]
      congr 1
      ring
    have hmono : 2 ^ (m * step) ≤ 2 ^ ((m + 1) * step) :=
      Nat.pow_le_pow_right (by omega) (Nat.mul_le_mul_right _ (by omega))
    have expand : (2 ^ step - 1) * (2 ^ (m * step)) =
        2 ^ ((m + 1) * step) - 2 ^ (m * step) := by
      rw [Nat.sub_mul, one_mul, hmul]
    calc (2 ^ step - 1) * geomAux step (m + 1)
        = (2 ^ step - 1) * geomAux step m + (2 ^ step - 1) * 2 ^ (m * step) := by
          simp [geomAux, Nat.shiftLeft_eq, Nat.mul_add]
      _ = 2 ^ ((m + 1) * step) - 1 := by rw [ih, expand]; omega

theorem strideMask_eq (count step : Nat) (hs : 1 ≤ step) :
    strideMask count step = geomAux step count := by
  have h2 : (2:Nat) ≤ 2 ^ step := by
    calc (2:Nat) = 2 ^ 1 := by norm_num
      _ ≤ 2 ^ step := Nat.pow_le_pow_right (by omega) hs
  unfold strideMask
  rw [Nat.shiftLeft_eq, Nat.shiftLeft_eq, one_mul, one_mul, ← geomAux_mul step count]
  exact Nat.mul_div_cancel_left _ (by omega)

theorem testBit_mul_pow_add (a b k i : Nat) (hb : b < 2 ^ k) :
    (a * 2 ^ k + b).testBit i =
      if i < k then b.testBit i else a.testBit (i - k) := by
  by_cases h : i < k
  · have hmod : (a * 2 ^ k + b) % 2 ^ k = b := by
      rw [Nat.add_comm, Nat.add_mul_mod_self_right, Nat.mod_eq_of_lt hb]
    have hmp := Nat.testBit_mod_two_pow (a * 2 ^ k + b) k i
    rw [hmod] at hmp
    simp only [h, decide_eq_true_eq, if_true] at hmp
    simp [h] at hmp
    simp [h, hmp]
  · have hdiv : (a * 2 ^ k + b) >>> k = a := by
      rw [Nat.shiftRight_eq_div_pow, Nat.add_comm, Nat.add_mul_div_right _ _ (Nat.pos_pow_of_pos k (by omega)), Nat.div_eq_of_lt hb, Nat.zero_add]
    have hsr := Nat.testBit_shiftRight (x := a * 2 ^ k + b) (i := k) (j := i - k)
    rw [hdiv] at hsr
    have e : k + (i - k) = i := by omega
    rw [e] at hsr
    simp [h, hsr]

theorem testBit_add_two_pow (a k i : Nat) (ha : a < 2 ^ k) :
    (a + 2 ^ k).testBit i = (a.testBit i || decide (i = k)) := by
  have h := testBit_mul_pow_add 1 a k i ha
  rw [one_mul, Nat.add_comm] at h
  rw [h]
  by_cases hik : i < k
  · simp [hik]
    omega
  · have h1 : (1:Nat) = 2 ^ 0 := by norm_num
    have htb : (1:Nat).testBit (i - k) = decide (i = k) := by
      rw [h1, Nat.testBit_two_pow]
      simp only [decide_eq_decide]
      omega
    have hfalse : a.testBit i = false := by
      apply Nat.testBit_lt_two_pow
      calc a < 2 ^ k := ha
        _ ≤ 2 ^ i := Nat.pow_le_pow_right (by omega) (by omega)
    simp [hik, htb, hfalse]

theorem testBit_geomAux (step m i : Nat) (hs : 1 ≤ step) :
    (geomAux step m).testBit i = decide (∃ j, j < m ∧ i = j * step) := by
  induction m with
  | zero => simp [geomAux]
  | succ m ih =>
    have e : geomAux step (m + 1) = geomAux step m + 2 ^ (m * step) := by
      simp [geomAux, Nat.shiftLeft_eq]
    rw [e, testBit_add_two_pow _ _ _ (geomAux_lt step m hs), ih, ← Bool.decide_or,
      decide_eq_decide]
    constructor
    · rintro (⟨j, hj, rfl⟩ | rfl)
      · exact ⟨j, by omega, rfl⟩
      · exact ⟨m, by omega, rfl⟩
    · rintro ⟨j, hj, rfl⟩
      rcases Nat.lt_succ_iff_lt_or_eq.mp hj with h | rfl
      · exact Or.inl ⟨j, h, rfl⟩
      · exact Or.inr rfl

theorem ceil_div_mul_le (a s : Nat) (hs : 1 ≤ s) : a ≤ (a + s - 1) / s * s := by
  have h := Nat.div_add_mod (a + s - 1) s
  have hlt : (a + s - 1) % s < s := Nat.mod_lt _ (by omega)
  have hcomm : (a + s - 1) / s * s = s * ((a + s - 1) / s) := Nat.mul_comm _ _
  omega

theorem strideIdx_lt_len (len start step j : Nat) (hs : 1 ≤ step)
    (hj : j < (len - start + step - 1) / step) : start + j * step < len := by
  have ha : 1 ≤ len - start := by
    by_contra h
    push_neg at h
    have h0 : len - start = 0 := by omega
    rw [h0] at hj
    have : (0 + step - 1) / step = 0 := Nat.div_eq_of_lt (by omega)
    omega
  have hmul : ((len - start + step - 1) / step) * step ≤ len - start + step - 1 :=
    Nat.div_mul_le_self _ _
  have hone : (j + 1) * step ≤ ((len - start + step - 1) / step) * step :=
    Nat.mul_le_mul_right _ (by omega)
  have hexp : (j + 1) * step = j * step + step := by ring
  omega

theorem testBit_sliceAssignZero (buf len start step i : Nat) (hs : 1 ≤ step) :
    (sliceAssignZero buf len start step).testBit i =
      (buf.testBit i && decide (i < len) &&
        !decide (start ≤ i ∧ step ∣ (i - start))) := by
  unfold sliceAssignZero
  have hones : ((1 <<< len) - 1 : Nat) = 2 ^ len - 1 := by
    rw [Nat.shiftLeft_eq, one_mul]
  rw [Nat.testBit_land, Nat.testBit_xor, hones, Nat.testBit_two_pow_sub_one,
    Nat.testBit_shiftLeft, strideMask_eq _ _ hs, testBit_geomAux _ _ _ hs]
  by_cases hlen : i < len
  · by_cases hstart : start ≤ i
    · have hcnt : len - start ≤ (len - start + step - 1) / step * step :=
        ceil_div_mul_le (len - start) step hs
      by_cases hdvd : step ∣ (i - start)
      · obtain ⟨j, hj⟩ := hdvd
        have hjlt : j < (len - start + step - 1) / step := by
          have hins : i - start < len - start := by omega
          rw [hj] at hins
          by_contra hc
          push_neg at hc
          have hmm : (len - start + step - 1) / step * step ≤ j * step :=
            Nat.mul_le_mul_right _ hc
          have hjs : j * step = step * j := by ring
          omega
        have hex : (∃ k, k < (len - start + step - 1) / step ∧
            i - start = k * step) := ⟨j, hjlt, by rw [hj, Nat.mul_comm]⟩
        have hdvd' : step ∣ (i - start) := ⟨j, hj⟩
        simp [hlen, hstart, hex, hdvd']
      · have hnex : ¬(∃ k, k < (len - start + step - 1) / step ∧
            i - start = k * step) := by
          rintro ⟨k, _, hk⟩
          exact hdvd ⟨k, by rw [hk, Nat.mul_comm]⟩
        simp [hlen, hstart, hnex, hdvd]
    · have hnot : ¬(start ≤ i ∧ step ∣ (i - start)) := fun h => hstart h.1
      simp [hlen, hstart, hnot]
  · have hnex : ¬(∃ k, k < (len - start + step - 1) / step ∧
        i - start = k * step) ∨ ¬ start ≤ i := by
      by_cases hstart : start ≤ i
      · left
        rintro ⟨k, hk1, hk2⟩
        have := strideIdx_lt_len len start step k hs hk1
        omega
      · exact Or.inr hstart
    rcases hnex with h | h
    · simp [hlen, h]
    · simp [hlen, h]

theorem sliceAssignZero_le (buf len start step : Nat) :
    sliceAssignZero buf len start step ≤ buf := by
  unfold sliceAssignZero
  exact Nat.and_le_left

/-! ## The extraction scan -/

theorem scanBits_eq : ∀ f d b, d < 2 ^ f →
    scanBits f d b =
      ((List.range f).filter (fun i => d.testBit i)).map (fun i => b + i) := by
  intro f
  induction f with
  | zero =>
    intro d b hd
    have : d = 0 := by omega
    subst this
    simp [scanBits]
  | succ f ih =>
    intro d b hd
    by_cases h0 : d = 0
    · subst h0
      simp [scanBits, Nat.zero_testBit]
    · have hd2 : d / 2 < 2 ^ f := by
        rw [pow_succ] at hd
        omega
      have htail : (List.range f).filter (fun i => d.testBit i.succ) =
          (List.range f).filter (fun i => (d / 2).testBit i) := by
        apply List.filter_congr
        intro i _
        rw [Nat.testBit_succ]
      rw [List.range_succ_eq_map]
      have hfm : List.filter (fun i => d.testBit i)
          (List.map Nat.succ (List.range f)) =
          List.map Nat.succ (List.filter (fun i => (d / 2).testBit i)
            (List.range f)) := by
        rw [List.filter_map]
        have hcomp : ((fun i => d.testBit i) ∘ Nat.succ) =
            fun i => d.testBit i.succ := rfl
        rw [hcomp, htail]
      by_cases hpar : d % 2 = 1
      · have ht0 : d.testBit 0 = true := by simp [Nat.testBit_zero, hpar]
        have hsb : scanBits (f + 1) d b = b :: scanBits f (d / 2) (b + 1) := by
          simp [scanBits, h0, hpar]
        have hfc : List.filter (fun i => d.testBit i)
            (0 :: List.map Nat.succ (List.range f)) =
            0 :: List.filter (fun i => d.testBit i)
              (List.map Nat.succ (List.range f)) := by
          simp [List.filter_cons, ht0]
        rw [hsb, ih (d / 2) (b + 1) hd2, hfc, hfm, List.map_cons, List.map_map,
          Nat.add_zero]
        congr 1
        apply List.map_congr_left
        intro i _
        simp only [Function.comp_apply]
        omega
      · have ht0 : d.testBit 0 = false := by simp [Nat.testBit_zero, hpar]
        have hsb : scanBits (f + 1) d b = scanBits f (d / 2) (b + 1) := by
          simp [scanBits, h0, hpar]
        have hfc : List.filter (fun i => d.testBit i)
            (0 :: List.map Nat.succ (List.range f)) =
            List.filter (fun i => d.testBit i)
              (List.map Nat.succ (List.range f)) := by
          simp [List.filter_cons, ht0]
        rw [hsb, ih (d / 2) (b + 1) hd2, hfc, hfm, List.map_map]
        apply List.map_congr_left
        intro i _
        simp only [Function.comp_apply]
        omega

theorem mem_scanBits (f d b v : Nat) (hd : d < 2 ^ f) :
    v ∈ scanBits f d b ↔ ∃ i, i < f ∧ d.testBit i ∧ v = b + i := by
  rw [scanBits_eq f d b hd]
  simp only [List.mem_map, List.mem_filter, List.mem_range]
  constructor
  · rintro ⟨i, ⟨hi, ht⟩, rfl⟩
    exact ⟨i, hi, ht, rfl⟩
  · rintro ⟨i, hi, ht, rfl⟩
    exact ⟨i, ⟨hi, ht⟩, rfl⟩

theorem scanBits_sorted (f d b : Nat) (hd : d < 2 ^ f) :
    (scanBits f d b).Sorted (· < ·) := by
  rw [scanBits_eq f d b hd]
  have h1 : ((List.range f).filter (fun i => d.testBit i)).Sorted (· < ·) :=
    List.Pairwise.sublist (List.filter_sublist (List.range f))
      (List.sorted_lt_range f)
  exact List.Pairwise.map _ (fun h => by omega) h1

theorem scanBits_length (f d b : Nat) (hd : d < 2 ^ f) :
    (scanBits f d b).length = (List.range f).countP (fun i => d.testBit i) := by
  rw [scanBits_eq f d b hd, List.length_map, ← List.countP_eq_length_filter]

/-! ## The flag counters -/

theorem testBit_odd_pred (m i : Nat) (hm : m % 2 = 1) :
    (m - 1).testBit i = (decide (1 ≤ i) && m.testBit i) := by
  cases i with
  | zero =>
    have : (m - 1) % 2 = 0 := by omega
    simp [Nat.testBit_zero, this]
  | succ i =>
    have hdiv : (m - 1) / 2 = m / 2 := by omega
    rw [Nat.testBit_succ, Nat.testBit_succ, hdiv]
    simp

theorem testBit_land_pred (w k m : Nat) (hw : w = 2 ^ k * m) (hm : m % 2 = 1) :
    (w.testBit k = true) ∧
      ∀ i, (w &&& (w - 1)).testBit i = (w.testBit i && !decide (i = k)) := by
  have hpk : (0:Nat) < 2 ^ k := Nat.pos_pow_of_pos k (by omega)
  have hw' : w = m * 2 ^ k + 0 := by rw [Nat.mul_comm] at hw; omega
  have hwt : ∀ i, w.testBit i =
      if i < k then false else m.testBit (i - k) := by
    intro i
    rw [hw', testBit_mul_pow_add m 0 k i hpk]
    cases Nat.lt_or_ge i k with
    | inl h => simp [h, Nat.zero_testBit]
    | inr h => simp [Nat.not_lt_of_ge h]
  have hm1 : 1 ≤ m := by omega
  have hw1 : w - 1 = (m - 1) * 2 ^ k + (2 ^ k - 1) := by
    have : (m - 1) * 2 ^ k = m * 2 ^ k - 2 ^ k := by
      rw [Nat.sub_mul, one_mul]
    rw [this, hw, Nat.mul_comm]
    have hle : 2 ^ k ≤ m * 2 ^ k := Nat.le_mul_of_pos_left _ (by omega)
    omega
  have hw1t : ∀ i, (w - 1).testBit i =
      if i < k then true else (m - 1).testBit (i - k) := by
    intro i
    rw [hw1, testBit_mul_pow_add (m - 1) (2 ^ k - 1) k i (by omega)]
    cases Nat.lt_or_ge i k with
    | inl h => simp [h, Nat.testBit_two_pow_sub_one]
    | inr h => simp [Nat.not_lt_of_ge h]
  constructor
  · rw [hwt k]
    simp [Nat.testBit_zero, hm]
  · intro i
    rw [Nat.testBit_land, hwt i, hw1t i]
    cases Nat.lt_or_ge i k with
    | inl h => simp [h]
    | inr h =>
      have hni : ¬ i < k := Nat.not_lt_of_ge h
      rw [if_neg hni, if_neg hni, testBit_odd_pred (m) (i - k) hm]
      by_cases hik : i = k
      · subst hik
        simp
      · have h1 : 1 ≤ i - k := by omega
        simp [h1, hik, Bool.and_comm]

theorem countP_range_remove (P : Nat → Bool) (k K : Nat) (hk : k < K)
    (hPk : P k = true) :
    (List.range K).countP (fun i => P i && !decide (i = k)) + 1 =
      (List.range K).countP P := by
  induction K with
  | zero => omega
  | succ K ih =>
    rw [List.range_succ, List.countP_append, List.countP_append]
    by_cases hkK : k = K
    · subst hkK
      have h1 : (List.range k).countP (fun i => P i && !decide (i = k)) =
          (List.range k).countP P := by
        apply List.countP_congr
        intro a ha
        have halt : a < k := List.mem_range.mp ha
        have hne : ¬ (a = k) := by omega
        simp [hne]
      have h2 : List.countP (fun i => P i && !decide (i = k)) [k] = 0 := by
        simp [List.countP_cons]
      have h3 : List.countP P [k] = 1 := by
        simp [List.countP_cons, hPk]
      rw [h1, h2, h3]
    · have hkK' : k < K := by omega
      have h2 : List.countP (fun i => P i && !decide (i = k)) [K] =
          List.countP P [K] := by
        have hne : ¬ (K = k) := fun h => hkK h.symm
        simp [List.countP_cons, hne]
      rw [h2, ← ih hkK']
      omega

theorem popWord_zero (f : Nat) : popWord f 0 = 0 := by
  cases f <;> simp [popWord]

theorem popWord_eq (w : Nat) :
    ∀ f, (List.range 64).countP (fun i => w.testBit i) ≤ f → w < 2 ^ 64 →
      popWord f w = (List.range 64).countP (fun i => w.testBit i) := by
  induction w using Nat.strong_induction_on with
  | _ w ih =>
    intro f hf hw
    by_cases h0 : w = 0
    · subst h0
      have hz : (List.range 64).countP (fun i => Nat.testBit 0 i) = 0 := by
        simp [Nat.zero_testBit]
      rw [hz, popWord_zero]
    · obtain ⟨k, m, hnd, hw'⟩ := Nat.exists_eq_pow_mul_and_not_dvd h0 2 (by omega)
      have hm : m % 2 = 1 := by omega
      obtain ⟨htk, hchar⟩ := testBit_land_pred w k m hw' hm
      have hk64 : k < 64 := by
        by_contra hc
        push_neg at hc
        have hfb := Nat.testBit_lt_two_pow
          (lt_of_lt_of_le hw (Nat.pow_le_pow_right (by omega) hc))
        rw [hfb] at htk
        exact absurd htk (by simp)
      cases f with
      | zero =>
        have hcount : 0 < (List.range 64).countP (fun i => w.testBit i) :=
          List.countP_pos_iff.mpr ⟨k, List.mem_range.mpr hk64, htk⟩
        omega
      | succ f =>
        have hwp : w &&& (w - 1) < w := by
          have h1 : w &&& (w - 1) ≤ w - 1 := Nat.and_le_right
          omega
        have hlt : w &&& (w - 1) < 2 ^ 64 :=
          lt_of_le_of_lt Nat.and_le_left hw
        have hcc : (List.range 64).countP (fun i => (w &&& (w - 1)).testBit i) + 1 =
            (List.range 64).countP (fun i => w.testBit i) := by
          have he : (List.range 64).countP (fun i => (w &&& (w - 1)).testBit i) =
              (List.range 64).countP (fun i => w.testBit i && !decide (i = k)) := by
            apply List.countP_congr
            intro a _
            rw [hchar a]
          rw [he]
          exact countP_range_remove _ k 64 hk64 htk
        have hrec := ih (w &&& (w - 1)) hwp f (by omega) hlt
        have hstep : popWord (f + 1) w = 1 + popWord f (w &&& (w - 1)) := by
          simp [popWord, h0]
        rw [hstep, hrec]
        omega

theorem popLoop_eq : ∀ f d acc, d < 2 ^ (64 * f) →
    popLoop f d acc = acc + (List.range (64 * f)).countP (fun i => d.testBit i) := by
  intro f
  induction f with
  | zero =>
    intro d acc hd
    have hd0 : d = 0 := by simpa using hd
    subst hd0
    simp [popLoop]
  | succ f ih =>
    intro d acc hd
    by_cases h0 : d = 0
    · subst h0
      have hz : (List.range (64 * (f + 1))).countP (fun i => Nat.testBit 0 i) = 0 := by
        simp [Nat.zero_testBit]
      simp [popLoop, hz]
    · have hsl : (1 <<< 64 : Nat) = 2 ^ 64 := by rw [Nat.shiftLeft_eq, one_mul]
      have hmod : d % (1 <<< 64) < 2 ^ 64 := by
        rw [hsl]
        exact Nat.mod_lt _ (by positivity)
      have hdiv : d >>> 64 < 2 ^ (64 * f) := by
        rw [Nat.shiftRight_eq_div_pow]
        apply Nat.div_lt_of_lt_mul
        have he : 2 ^ (64 * (f + 1)) = 2 ^ 64 * 2 ^ (64 * f) := by
          rw [← pow_add]
          congr 1
          ring
        rw [← he]
        exact hd
      have hcnt : (List.range 64).countP (fun i => (d % (1 <<< 64)).testBit i) ≤ 64 := by
        calc (List.range 64).countP (fun i => (d % (1 <<< 64)).testBit i)
            ≤ (List.range 64).length := List.countP_le_length _
          _ = 64 := List.length_range 64
      have hpw := popWord_eq (d % (1 <<< 64)) 64 hcnt hmod
      have hrec := ih (d >>> 64) (acc + popWord 64 (d % (1 <<< 64))) hdiv
      have hstep : popLoop (f + 1) d acc =
          popLoop f (d >>> 64) (acc + popWord 64 (d % (1 <<< 64))) := by
        simp [popLoop, h0]
      have hlow : (List.range 64).countP (fun i => (d % (1 <<< 64)).testBit i) =
          (List.range 64).countP (fun i => d.testBit i) := by
        apply List.countP_congr
        intro a ha
        have ha64 : a < 64 := List.mem_range.mp ha
        rw [hsl, Nat.testBit_mod_two_pow]
        simp [ha64]
      have hhi : (List.range (64 * f)).countP (fun i => (d >>> 64).testBit i) =
          (List.range (64 * f)).countP (fun i => d.testBit (64 + i)) := by
        apply List.countP_congr
        intro a _
        rw [Nat.testBit_shiftRight]
      have hsplit : (List.range (64 * (f + 1))).countP (fun i => d.testBit i) =
          (List.range 64).countP (fun i => d.testBit i) +
          (List.range (64 * f)).countP (fun i => d.testBit (64 + i)) := by
        have he : 64 * (f + 1) = 64 + 64 * f := by ring
        rw [he, List.range_add, List.countP_append, List.countP_map]
        rfl
      rw [hstep, hrec, hpw, hlow, hhi, hsplit]
      omega

theorem popCount_eq (width d : Nat) (hd : d < 2 ^ width) :
    popCount width d = (List.range width).countP (fun i => d.testBit i) := by
  unfold popCount
  have hw : width ≤ 64 * (width / 64 + 1) := by
    have h1 := Nat.div_add_mod width 64
    have h2 : width % 64 < 64 := Nat.mod_lt _ (by omega)
    omega
  have hd' : d < 2 ^ (64 * (width / 64 + 1)) :=
    lt_of_lt_of_le hd (Nat.pow_le_pow_right (by omega) hw)
  rw [popLoop_eq _ d 0 hd', Nat.zero_add]
  have he : 64 * (width / 64 + 1) = width + (64 * (width / 64 + 1) - width) := by
    omega
  rw [he, List.range_add, List.countP_append, List.countP_map]
  have hz : (List.range (64 * (width / 64 + 1) - width)).countP
      ((fun i => d.testBit i) ∘ (fun i => width + i)) = 0 := by
    rw [List.countP_eq_zero]
    intro a _
    simp only [Function.comp_apply]
    have : d < 2 ^ (width + a) :=
      lt_of_lt_of_le hd (Nat.pow_le_pow_right (by omega) (by omega))
    simp [Nat.testBit_lt_two_pow this]
  rw [hz]
  omega

theorem scanBits_length_popCount (f d b : Nat) (hd : d < 2 ^ f) :
    (scanBits f d b).length = popCount f d := by
  rw [scanBits_length f d b hd, popCount_eq f d hd]

/-! ## Correctness of the classic sieve -/

theorem sorted_ext (l1 l2 : List Nat) (h1 : l1.Sorted (· < ·))
    (h2 : l2.Sorted (· < ·)) (h : ∀ x, x ∈ l1 ↔ x ∈ l2) : l1 = l2 := by
  haveI : IsAntisymm Nat (· < ·) :=
    ⟨fun a b ha hb => absurd hb (lt_asymm ha)⟩
  exact List.eq_of_perm_of_sorted
    ((List.perm_ext_iff_of_nodup h1.nodup h2.nodup).mpr h) h1 h2

theorem odd_prime_witness (v : Nat) (hv : v % 2 = 1) (h3 : 3 ≤ v) :
    (¬∃ p, Nat.Prime p ∧ p % 2 = 1 ∧ p < v ∧ p ∣ v ∧ p * p ≤ v) ↔
      Nat.Prime v := by
  constructor
  · intro hno
    by_contra hnp
    have hne1 : v ≠ 1 := by omega
    have hp := Nat.minFac_prime hne1
    have hdvd := Nat.minFac_dvd v
    have hsq : v.minFac * v.minFac ≤ v := by
      have := Nat.minFac_sq_le_self (by omega) hnp
      rwa [pow_two] at this
    have hodd : v.minFac % 2 = 1 := by
      rcases hp.eq_two_or_odd with h2 | h
      · exfalso
        rw [h2] at hdvd
        omega
      · exact h
    have hlt : v.minFac < v := by
      have hle : v.minFac ≤ v := Nat.le_of_dvd (by omega) hdvd
      have h2 : 2 ≤ v.minFac := hp.two_le
      by_contra hc
      push_neg at hc
      have hveq : v.minFac = v := by omega
      rw [hveq] at hsq
      nlinarith
    exact hno ⟨v.minFac, hp, hodd, hlt, hdvd, hsq⟩
  · rintro hp ⟨q, hq, _, hlt, hdvd, _⟩
    rcases (Nat.Prime.eq_one_or_self_of_dvd hp q hdvd) with h1 | h1
    · exact absurd h1 (Nat.Prime.ne_one hq)
    · omega

theorem mark_iff (c i : Nat) (hcp : Nat.Prime c) (hc : c % 2 = 1)
    (hc3 : 3 ≤ c) :
    ((c * c - 3) / 2 ≤ i ∧ c ∣ (i - (c * c - 3) / 2)) ↔
      (c ∣ (2 * i + 3) ∧ c * c ≤ 2 * i + 3) := by
  have hodd : c * c % 2 = 1 := by
    rw [Nat.mul_mod, hc]
  have h9 : 9 ≤ c * c := by nlinarith
  have h2s : 2 * ((c * c - 3) / 2) + 3 = c * c := by omega
  constructor
  · rintro ⟨hle, ⟨j, hj⟩⟩
    have ha : 2 * i + 3 = c * c + 2 * (c * j) := by omega
    have hb : c * c + 2 * (c * j) = c * (c + 2 * j) := by ring
    refine ⟨⟨c + 2 * j, ha.trans hb⟩, by omega⟩
  · rintro ⟨⟨j, hj⟩, hle⟩
    have hcj : c * c ≤ c * j := by omega
    have hjc : c ≤ j := Nat.le_of_mul_le_mul_left hcj (by omega)
    obtain ⟨t, rfl⟩ := Nat.exists_eq_add_of_le hjc
    have hle' : (c * c - 3) / 2 ≤ i := by omega
    refine ⟨hle', ?_⟩
    have h2 : 2 * (i - (c * c - 3) / 2) = c * t := by
      have he : c * (c + t) = c * c + c * t := by ring
      omega
    have hdd : c ∣ 2 * (i - (c * c - 3) / 2) := ⟨t, h2⟩
    rcases (Nat.Prime.dvd_mul hcp).mp hdd with h | h
    · have := Nat.le_of_dvd (by omega) h
      omega
    · exact h

theorem sieveLoop_invariant (size : Nat) : ∀ m c buf, c % 2 = 1 → 3 ≤ c →
    buf < 2 ^ size →
    (∀ i, i < size → (buf.testBit i = true ↔
      ¬∃ p, Nat.Prime p ∧ p % 2 = 1 ∧ p < c ∧ p ∣ (2 * i + 3) ∧
        p * p ≤ 2 * i + 3)) →
    sieveLoop size (List.range' c m 2) buf < 2 ^ size ∧
      (∀ i, i < size →
        ((sieveLoop size (List.range' c m 2) buf).testBit i = true ↔
          ¬∃ p, Nat.Prime p ∧ p % 2 = 1 ∧ p < c + 2 * m ∧ p ∣ (2 * i + 3) ∧
            p * p ≤ 2 * i + 3)) := by
  intro m
  induction m with
  | zero =>
    intro c buf hc hc3 hlt hinv
    constructor
    · simpa [sieveLoop] using hlt
    · intro i hi
      simpa [sieveLoop] using hinv i hi
  | succ m ih =>
    intro c buf hc hc3 hlt hinv
    have hrange : List.range' c (m + 1) 2 = c :: List.range' (c + 2) m 2 := by
      simp [List.range']
    rw [hrange]
    simp only [sieveLoop]
    have hvidx : 2 * ((c - 3) / 2) + 3 = c := by omega
    by_cases htest : buf.testBit ((c - 3) / 2) = true
    · have hcp : Nat.Prime c := by
        by_cases hszi : (c - 3) / 2 < size
        · have h := (hinv _ hszi).mp htest
          rw [hvidx] at h
          exact (odd_prime_witness c hc hc3).mp h
        · exfalso
          have hfb : buf.testBit ((c - 3) / 2) = false :=
            Nat.testBit_lt_two_pow
              (lt_of_lt_of_le hlt (Nat.pow_le_pow_right (by omega) (by omega)))
          rw [hfb] at htest
          exact absurd htest (by simp)
      rw [if_pos htest]
      have hlt2 : sliceAssignZero buf size ((c * c - 3) / 2) c < 2 ^ size :=
        lt_of_le_of_lt (sliceAssignZero_le _ _ _ _) hlt
      have hinv2 : ∀ i, i < size →
          ((sliceAssignZero buf size ((c * c - 3) / 2) c).testBit i = true ↔
            ¬∃ p, Nat.Prime p ∧ p % 2 = 1 ∧ p < c + 2 ∧ p ∣ (2 * i + 3) ∧
              p * p ≤ 2 * i + 3) := by
        intro i hi
        rw [testBit_sliceAssignZero buf size _ c i (by omega)]
        simp only [Bool.and_eq_true, decide_eq_true_eq, Bool.not_eq_true',
          decide_eq_false_iff_not]
        constructor
        · rintro ⟨⟨hb, _⟩, hnm⟩ ⟨p, pp, podd, plt, pdvd, psq⟩
          have hnold := (hinv i hi).mp hb
          by_cases hpc : p = c
          · subst hpc
            exact hnm ((mark_iff p i pp podd (by omega)).mpr ⟨pdvd, psq⟩)
          · have hplt : p < c := by omega
            exact hnold ⟨p, pp, podd, hplt, pdvd, psq⟩
        · intro hno
          refine ⟨⟨?_, hi⟩, ?_⟩
          · rw [hinv i hi]
            rintro ⟨p, pp, podd, plt, pdvd, psq⟩
            exact hno ⟨p, pp, podd, by omega, pdvd, psq⟩
          · intro hm
            have := (mark_iff c i hcp hc hc3).mp hm
            exact hno ⟨c, hcp, hc, by omega, this.1, this.2⟩
      have hres := ih (c + 2) (sliceAssignZero buf size ((c * c - 3) / 2) c)
        (by omega) (by omega) hlt2 hinv2
      have he : c + 2 + 2 * m = c + 2 * (m + 1) := by omega
      rw [he] at hres
      exact hres
    · rw [if_neg htest]
      have hinv2 : ∀ i, i < size → (buf.testBit i = true ↔
          ¬∃ p, Nat.Prime p ∧ p % 2 = 1 ∧ p < c + 2 ∧ p ∣ (2 * i + 3) ∧
            p * p ≤ 2 * i + 3) := by
        intro i hi
        rw [hinv i hi]
        constructor
        · intro hno ⟨p, pp, podd, plt, pdvd, psq⟩
          by_cases hpc : p = c
          · subst hpc
            by_cases hszi : (p - 3) / 2 < size
            · have hb : buf.testBit ((p - 3) / 2) = false := by
                cases hx : buf.testBit ((p - 3) / 2) with
                | false => rfl
                | true => exact absurd hx htest
              have hex : ∃ q, Nat.Prime q ∧ q % 2 = 1 ∧ q < p ∧
                  q ∣ (2 * ((p - 3) / 2) + 3) ∧
                  q * q ≤ 2 * ((p - 3) / 2) + 3 := by
                by_contra hq
                have hcontra := (hinv _ hszi).mpr hq
                rw [hb] at hcontra
                exact absurd hcontra (by simp)
              rw [hvidx] at hex
              obtain ⟨q, hqp, _, hqlt, hqdvd, _⟩ := hex
              rcases pp.eq_one_or_self_of_dvd q hqdvd with h1 | h1
              · exact absurd h1 hqp.ne_one
              · omega
            · have hcbig : 2 * size + 3 ≤ p := by omega
              have hcc : p ≤ p * p := Nat.le_mul_of_pos_left p (by omega)
              omega
          · exact hno ⟨p, pp, podd, by omega, pdvd, psq⟩
        · intro hno ⟨p, pp, podd, plt, pdvd, psq⟩
          exact hno ⟨p, pp, podd, by omega, pdvd, psq⟩
      have hres := ih (c + 2) buf (by omega) (by omega) hlt hinv2
      have he : c + 2 + 2 * m = c + 2 * (m + 1) := by omega
      rw [he] at hres
      exact hres

theorem sieveLoop_le (size : Nat) : ∀ cs buf, sieveLoop size cs buf ≤ buf := by
  intro cs
  induction cs with
  | nil =>
    intro buf
    simp [sieveLoop]
  | cons c rest ih =>
    intro buf
    simp only [sieveLoop]
    by_cases h : buf.testBit ((c - 3) / 2) = true
    · rw [if_pos h]
      exact le_trans (ih _) (sliceAssignZero_le _ _ _ _)
    · rw [if_neg h]
      exact ih buf

theorem init_buf_lt (size : Nat) : ((1 <<< size) - 1 : Nat) < 2 ^ size := by
  rw [Nat.shiftLeft_eq, one_mul]
  have := Nat.one_le_two_pow (n := size)
  omega

theorem sieveBuf_lt (n : Nat) : sieveBuf n < 2 ^ sieveSize n :=
  lt_of_le_of_lt (sieveLoop_le _ _ _) (init_buf_lt (sieveSize n))

theorem isqrt_ge_two (n : Nat) (hn : 4 ≤ n) : 2 ≤ isqrt n := by
  have h := isqrt_spec n
  by_contra hc
  push_neg at hc
  have h1 : isqrt n + 1 ≤ 2 := by omega
  have h2 : (isqrt n + 1) * (isqrt n + 1) ≤ 2 * 2 := Nat.mul_le_mul h1 h1
  omega

theorem sieveBuf_char (n : Nat) (hn : 4 ≤ n) : ∀ i, i < sieveSize n →
    ((sieveBuf n).testBit i = true ↔ Nat.Prime (2 * i + 3)) := by
  have hinit : ∀ i, i < sieveSize n →
      (((1 <<< sieveSize n) - 1 : Nat).testBit i = true ↔
        ¬∃ p, Nat.Prime p ∧ p % 2 = 1 ∧ p < 3 ∧ p ∣ (2 * i + 3) ∧
          p * p ≤ 2 * i + 3) := by
    intro i hi
    rw [Nat.shiftLeft_eq, one_mul, Nat.testBit_two_pow_sub_one]
    constructor
    · intro _
      rintro ⟨p, pp, podd, plt, _, _⟩
      have := pp.two_le
      omega
    · intro _
      simpa using hi
  have hinv := sieveLoop_invariant (sieveSize n) ((isqrt n - 1) / 2) 3
    ((1 <<< sieveSize n) - 1) (by omega) (by omega) (init_buf_lt _) hinit
  intro i hi
  have hchar := hinv.2 i hi
  have hbeq : sieveBuf n =
      sieveLoop (sieveSize n) (List.range' 3 ((isqrt n - 1) / 2) 2)
        ((1 <<< sieveSize n) - 1) := rfl
  rw [← hbeq] at hchar
  rw [hchar]
  have hs2 : 2 ≤ isqrt n := isqrt_ge_two n hn
  have hsqlt : isqrt n < 3 + 2 * ((isqrt n - 1) / 2) := by omega
  have hvlt : 2 * i + 3 < n := by
    have : i < (n - 3 + 1) / 2 := hi
    omega
  have hvodd : (2 * i + 3) % 2 = 1 := by omega
  rw [← odd_prime_witness (2 * i + 3) hvodd (by omega)]
  constructor
  · intro hno ⟨p, pp, podd, plt, pdvd, psq⟩
    have hpc : p < 3 + 2 * ((isqrt n - 1) / 2) := by
      have hpn : p * p ≤ n := by omega
      have hps : p ≤ Nat.sqrt n := Nat.le_sqrt.mpr hpn
      rw [← isqrt_eq_sqrt] at hps
      omega
    exact hno ⟨p, pp, podd, hpc, pdvd, psq⟩
  · intro hno ⟨p, pp, podd, plt, pdvd, psq⟩
    have hplt : p < 2 * i + 3 := by
      have h2p : 2 ≤ p := pp.two_le
      have : p < p * p := by nlinarith
      omega
    exact hno ⟨p, pp, podd, hplt, pdvd, psq⟩

theorem sieve_of_eratosthenes_nat_eq (n : Nat) :
    sieve_of_eratosthenes_nat n =
      (List.range n).filter (fun p => decide (Nat.Prime p)) := by
  by_cases h2 : n ≤ 2
  · unfold sieve_of_eratosthenes_nat
    rw [if_pos h2]
    symm
    rw [List.filter_eq_nil_iff]
    intro a ha
    have halt : a < n := List.mem_range.mp ha
    simp only [decide_eq_true_eq]
    intro hp
    have := hp.two_le
    omega
  · by_cases h3 : n ≤ 3
    · have hn3 : n = 3 := by omega
      subst hn3
      unfold sieve_of_eratosthenes_nat
      norm_num
      have h0 : (decide (Nat.Prime 0)) = false := decide_eq_false Nat.not_prime_zero
      have h1 : (decide (Nat.Prime 1)) = false := decide_eq_false Nat.not_prime_one
      have hp2 : (decide (Nat.Prime 2)) = true := decide_eq_true Nat.prime_two
      rw [show List.range 3 = [0, 1, 2] from rfl]
      simp [List.filter, h0, h1, hp2]
    · have hn4 : 4 ≤ n := by omega
      unfold sieve_of_eratosthenes_nat
      rw [if_neg h2, if_neg h3]
      have hblt := sieveBuf_lt n
      have hchar := sieveBuf_char n hn4
      apply sorted_ext
      · rw [List.sorted_cons]
        constructor
        · intro b hb
          obtain ⟨i, _, rfl⟩ := List.mem_map.mp hb
          omega
        · have hsb := scanBits_sorted (sieveSize n) (sieveBuf n) 0 hblt
          exact List.Pairwise.map _ (fun h => by omega) hsb
      · exact List.Pairwise.sublist (List.filter_sublist _) (List.sorted_lt_range n)
      · intro x
        rw [List.mem_cons, List.mem_map, List.mem_filter, List.mem_range]
        simp only [decide_eq_true_eq]
        constructor
        · rintro (rfl | ⟨i, hia, rfl⟩)
          · exact ⟨by omega, Nat.prime_two⟩
          · obtain ⟨j, hj, htb, rfl⟩ :=
              (mem_scanBits (sieveSize n) (sieveBuf n) 0 i hblt).mp hia
            simp only [Nat.zero_add]
            have hp := (hchar j hj).mp htb
            have hjv : 2 * j + 3 < n := by
              have : j < (n - 3 + 1) / 2 := hj
              omega
            exact ⟨hjv, hp⟩
        · rintro ⟨hxlt, hxp⟩
          by_cases hx2 : x = 2
          · exact Or.inl hx2
          · right
            have hx2le := hxp.two_le
            have hxodd : x % 2 = 1 := by
              rcases hxp.eq_two_or_odd with h | h
              · exact absurd h hx2
              · exact h
            have hx3 : 3 ≤ x := by omega
            refine ⟨(x - 3) / 2, ?_, ?_⟩
            · apply (mem_scanBits (sieveSize n) (sieveBuf n) 0 _ hblt).mpr
              have hjlt : (x - 3) / 2 < sieveSize n := by
                unfold sieveSize
                omega
              refine ⟨(x - 3) / 2, hjlt, ?_, by omega⟩
              apply (hchar _ hjlt).mpr
              have : 2 * ((x - 3) / 2) + 3 = x := by omega
              rw [this]
              exact hxp
            · omega

/-! ## Correctness of the segment engine -/

theorem segStart_spec (odd_low p : Nat) (hp3 : 3 ≤ p) (hpodd : p % 2 = 1) :
    odd_low ≤ segStart odd_low p ∧ p ∣ segStart odd_low p ∧
      segStart odd_low p % 2 = 1 ∧ p * p ≤ segStart odd_low p ∧
      ∀ v, p ∣ v → v % 2 = 1 → odd_low ≤ v → p * p ≤ v →
        segStart odd_low p ≤ v := by
  have hs0ge : odd_low ≤ ((odd_low + p - 1) / p) * p :=
    ceil_div_mul_le odd_low p (by omega)
  have hs0le : ((odd_low + p - 1) / p) * p ≤ odd_low + p - 1 :=
    Nat.div_mul_le_self _ _
  have hs0dvd : p ∣ ((odd_low + p - 1) / p) * p :=
    ⟨(odd_low + p - 1) / p, Nat.mul_comm _ _⟩
  have hppdvd : p ∣ p * p := ⟨p, rfl⟩
  have hppodd : (p * p) % 2 = 1 := by rw [Nat.mul_mod, hpodd]
  have hmin0 : ∀ v, p ∣ v → odd_low ≤ v → ((odd_low + p - 1) / p) * p ≤ v := by
    intro v hdvd hge
    by_contra hc
    push_neg at hc
    obtain ⟨a, rfl⟩ := hdvd
    obtain ⟨b, hb⟩ : p ∣ ((odd_low + p - 1) / p) * p := hs0dvd
    rw [hb] at hc hs0ge hs0le
    have hab : a < b := by
      by_contra hab
      push_neg at hab
      have := Nat.mul_le_mul_left p hab
      omega
    have : p * a + p ≤ p * b := by
      have h1 : a + 1 ≤ b := by omega
      have h2 := Nat.mul_le_mul_left p h1
      have h3 : p * (a + 1) = p * a + p := by ring
      omega
    omega
  unfold segStart
  by_cases hc1 : ((odd_low + p - 1) / p) * p < p * p
  · simp only [hc1, if_true]
    have hno2 : ¬ (p * p) % 2 = 0 := by omega
    simp only [hno2, if_false]
    refine ⟨by omega, hppdvd, hppodd, le_refl _, ?_⟩
    intro v _ _ _ hvpp
    exact hvpp
  · simp only [hc1, if_false]
    by_cases hc2 : (((odd_low + p - 1) / p) * p) % 2 = 0
    · simp only [hc2, if_true]
      push_neg at hc1
      constructor
      · omega
      refine ⟨?_, ?_, ?_, ?_⟩
      · obtain ⟨a, ha⟩ := hs0dvd
        exact ⟨a + 1, by rw [ha]; ring⟩
      · omega
      · have hple : p * p + p ≤ ((odd_low + p - 1) / p) * p + p := by omega
        have hpp : p * p ≠ ((odd_low + p - 1) / p) * p := by
          intro he
          rw [← he] at hc2
          omega
        omega
      · intro v hdvd hvodd hvge hvpp
        have h0 := hmin0 v hdvd hvge
        have hvne : v ≠ ((odd_low + p - 1) / p) * p := by
          intro he
          rw [he] at hvodd
          omega
        have hgt : ((odd_low + p - 1) / p) * p < v := by omega
        obtain ⟨a, rfl⟩ := hdvd
        obtain ⟨b, hb⟩ : p ∣ ((odd_low + p - 1) / p) * p := hs0dvd
        rw [hb] at hgt ⊢
        have hba : b < a := by
          by_contra hab
          push_neg at hab
          have := Nat.mul_le_mul_left p hab
          omega
        have : p * b + p ≤ p * a := by
          have h1 : b + 1 ≤ a := by omega
          have h2 := Nat.mul_le_mul_left p h1
          have h3 : p * (b + 1) = p * b + p := by ring
          omega
        omega
    · simp only [hc2, if_false]
      push_neg at hc1
      refine ⟨by omega, hs0dvd, by omega, hc1, ?_⟩
      intro v hdvd _ hvge _
      exact hmin0 v hdvd hvge

theorem seg_mark_cond (odd_low p i : Nat) (hol : odd_low % 2 = 1)
    (hp : Nat.Prime p) (hpodd : p % 2 = 1) (hp3 : 3 ≤ p) :
    ((segStart odd_low p - odd_low) / 2 ≤ i ∧
        p ∣ (i - (segStart odd_low p - odd_low) / 2)) ↔
      (p ∣ (odd_low + 2 * i) ∧ p * p ≤ odd_low + 2 * i) := by
  obtain ⟨hge, hdvd, hodd, hpp, hmin⟩ := segStart_spec odd_low p hp3 hpodd
  constructor
  · rintro ⟨hle, ⟨t, ht⟩⟩
    obtain ⟨u, hu⟩ := hdvd
    have hv : odd_low + 2 * i = p * (u + 2 * t) := by
      have hexp : p * (u + 2 * t) = p * u + 2 * (p * t) := by ring
      omega
    exact ⟨⟨u + 2 * t, hv⟩, by omega⟩
  · rintro ⟨hdv, hsq⟩
    have hvodd : (odd_low + 2 * i) % 2 = 1 := by omega
    have hSle : segStart odd_low p ≤ odd_low + 2 * i :=
      hmin _ hdv hvodd (by omega) hsq
    have hle : (segStart odd_low p - odd_low) / 2 ≤ i := by omega
    refine ⟨hle, ?_⟩
    obtain ⟨a, ha⟩ := hdv
    obtain ⟨u, hu⟩ := hdvd
    have hau : u ≤ a := by
      apply Nat.le_of_mul_le_mul_left _ (show 0 < p by omega)
      omega
    obtain ⟨t, rfl⟩ := Nat.exists_eq_add_of_le hau
    have hx : p * (u + t) = p * u + p * t := by ring
    have hpd : p ∣ 2 * (i - (segStart odd_low p - odd_low) / 2) :=
      ⟨t, by omega⟩
    rcases (Nat.Prime.dvd_mul hp).mp hpd with h | h
    · have := Nat.le_of_dvd (by omega) h
      omega
    · exact h

theorem segMarkLoop_char (odd_low high seg_len : Nat) (hol : odd_low % 2 = 1)
    (h3 : 3 ≤ odd_low) (hlow : odd_low < high)
    (hseg : seg_len = (high - odd_low + 1) / 2) :
    ∀ bp buf, (∀ p ∈ bp, Nat.Prime p ∧ 2 < p) → buf < 2 ^ seg_len →
      segMarkLoop odd_low high seg_len bp buf < 2 ^ seg_len ∧
      (∀ i, i < seg_len →
        ((segMarkLoop odd_low high seg_len bp buf).testBit i = true ↔
          (buf.testBit i = true ∧ ∀ p ∈ bp,
            ¬(p ∣ (odd_low + 2 * i) ∧ p * p ≤ odd_low + 2 * i)))) := by
  intro bp
  induction bp with
  | nil =>
    intro buf hbp hlt
    refine ⟨by simpa [segMarkLoop] using hlt, ?_⟩
    intro i hi
    simp [segMarkLoop]
  | cons p rest ih =>
    intro buf hbp hlt
    obtain ⟨hpp, hp2⟩ := hbp p (List.mem_cons_self p rest)
    have hpodd : p % 2 = 1 := by
      rcases hpp.eq_two_or_odd with h | h
      · omega
      · exact h
    have hp3 : 3 ≤ p := by
      have := hpp.two_le
      omega
    have hrest : ∀ q ∈ rest, Nat.Prime q ∧ 2 < q :=
      fun q hq => hbp q (List.mem_cons_of_mem p hq)
    simp only [segMarkLoop]
    by_cases hhs : high ≤ segStart odd_low p
    · rw [if_pos hhs]
      have hres := ih buf hrest hlt
      refine ⟨hres.1, ?_⟩
      intro i hi
      rw [hres.2 i hi]
      have hnm : ¬(p ∣ (odd_low + 2 * i) ∧ p * p ≤ odd_low + 2 * i) := by
        rintro ⟨hdv, hsq⟩
        obtain ⟨_, _, _, _, hmin⟩ := segStart_spec odd_low p hp3 hpodd
        have hvlt : odd_low + 2 * i < high := by omega
        have := hmin (odd_low + 2 * i) hdv (by omega) (by omega) hsq
        omega
      constructor
      · rintro ⟨hb, hall⟩
        refine ⟨hb, ?_⟩
        intro q hq
        rcases List.mem_cons.mp hq with rfl | hq'
        · exact hnm
        · exact hall q hq'
      · rintro ⟨hb, hall⟩
        exact ⟨hb, fun q hq => hall q (List.mem_cons_of_mem p hq)⟩
    · rw [if_neg hhs]
      have hlt2 : sliceAssignZero buf seg_len
          ((segStart odd_low p - odd_low) / 2) p < 2 ^ seg_len :=
        lt_of_le_of_lt (sliceAssignZero_le _ _ _ _) hlt
      have hres := ih _ hrest hlt2
      refine ⟨hres.1, ?_⟩
      intro i hi
      rw [hres.2 i hi, testBit_sliceAssignZero _ _ _ _ _ (by omega)]
      simp only [Bool.and_eq_true, decide_eq_true_eq, Bool.not_eq_true',
        decide_eq_false_iff_not]
      rw [seg_mark_cond odd_low p i hol hpp hpodd hp3]
      constructor
      · rintro ⟨⟨⟨hb, _⟩, hnm⟩, hall⟩
        refine ⟨hb, ?_⟩
        intro q hq
        rcases List.mem_cons.mp hq with rfl | hq'
        · exact hnm
        · exact hall q hq'
      · rintro ⟨hb, hall⟩
        exact ⟨⟨⟨hb, hi⟩, hall p (List.mem_cons_self p rest)⟩,
          fun q hq => hall q (List.mem_cons_of_mem p hq)⟩

theorem engine_unfold (low high : Nat) (bp : List Nat) :
    _sieve_segment_odd_only low high bp =
      (if high ≤ (if (max low 3) % 2 = 0 then max low 3 + 1 else max low 3)
       then (if low ≤ 2 ∧ 2 < high then [2] else [])
       else if (high - (if (max low 3) % 2 = 0 then max low 3 + 1 else max low 3) + 1) / 2 = 0
       then (if low ≤ 2 ∧ 2 < high then [2] else [])
       else (if low ≤ 2 ∧ 2 < high then [2] else []) ++
         (scanBits
           ((high - (if (max low 3) % 2 = 0 then max low 3 + 1 else max low 3) + 1) / 2)
           (segMarkLoop (if (max low 3) % 2 = 0 then max low 3 + 1 else max low 3)
             high
             ((high - (if (max low 3) % 2 = 0 then max low 3 + 1 else max low 3) + 1) / 2)
             bp
             ((1 <<< ((high - (if (max low 3) % 2 = 0 then max low 3 + 1 else max low 3) + 1) / 2)) - 1))
           0).map
           (fun idx =>
             (if (max low 3) % 2 = 0 then max low 3 + 1 else max low 3) + 2 * idx)) := rfl

theorem _sieve_segment_odd_only_eq (low high : Nat) (bp : List Nat)
    (hbp : ∀ p ∈ bp, Nat.Prime p ∧ 2 < p)
    (hcov : ∀ p, Nat.Prime p → p ≠ 2 → p * p < high → p ∈ bp) :
    _sieve_segment_odd_only low high bp =
      (List.range high).filter
        (fun v => decide (Nat.Prime v) && decide (low ≤ v)) := by
  rw [engine_unfold]
  set ol := (if (max low 3) % 2 = 0 then max low 3 + 1 else max low 3) with holdef
  have hol : ol % 2 = 1 := by
    rw [holdef]
    by_cases h : (max low 3) % 2 = 0 <;> simp [h] <;> omega
  have h3 : 3 ≤ ol := by
    rw [holdef]
    have : 3 ≤ max low 3 := le_max_right _ _
    by_cases h : (max low 3) % 2 = 0 <;> simp [h] <;> omega
  have hlowle : low ≤ ol := by
    rw [holdef]
    have : low ≤ max low 3 := le_max_left _ _
    by_cases h : (max low 3) % 2 = 0 <;> simp [h] <;> omega
  have hmem : ∀ v, v % 2 = 1 → 3 ≤ v → (ol ≤ v ↔ low ≤ v) := by
    intro v hv h3v
    rw [holdef]
    constructor
    · intro h
      have : low ≤ max low 3 := le_max_left _ _
      by_cases hpar : (max low 3) % 2 = 0 <;> simp [hpar] at h <;> omega
    · intro h
      have hge : max low 3 ≤ v := max_le h h3v
      by_cases hpar : (max low 3) % 2 = 0
      · simp [hpar]
        omega
      · simp [hpar]
        omega
  have hprimes2 : ∀ x, (x ∈ (if low ≤ 2 ∧ 2 < high then ([2]:List Nat) else []) ↔
      (x = 2 ∧ low ≤ 2 ∧ 2 < high)) := by
    intro x
    by_cases h : low ≤ 2 ∧ 2 < high
    · simp [h]
    · simp only [if_neg h, List.mem_nil_iff, false_iff]
      intro hx
      exact h ⟨hx.2.1, hx.2.2⟩
  by_cases hsm : high ≤ ol
  · rw [if_pos hsm]
    apply sorted_ext
    · by_cases h : low ≤ 2 ∧ 2 < high <;> simp [h]
    · exact List.Pairwise.sublist (List.filter_sublist _) (List.sorted_lt_range high)
    · intro x
      rw [hprimes2 x, List.mem_filter, List.mem_range]
      simp only [Bool.and_eq_true, decide_eq_true_eq]
      constructor
      · rintro ⟨rfl, hl2, h2h⟩
        exact ⟨h2h, Nat.prime_two, hl2⟩
      · rintro ⟨hxh, hxp, hlx⟩
        by_cases hx2 : x = 2
        · exact ⟨hx2, by omega, by omega⟩
        · exfalso
          have hx2le := hxp.two_le
          have hxodd : x % 2 = 1 := by
            rcases hxp.eq_two_or_odd with h | h
            · exact absurd h hx2
            · exact h
          have : ol ≤ x := (hmem x hxodd (by omega)).mpr hlx
          omega
  · rw [if_neg hsm]
    push_neg at hsm
    have hseglen : (high - ol + 1) / 2 ≠ 0 := by omega
    rw [if_neg hseglen]
    have hinit : ((1 <<< ((high - ol + 1) / 2)) - 1 : Nat) < 2 ^ ((high - ol + 1) / 2) :=
      init_buf_lt _
    have hchar0 := segMarkLoop_char ol high ((high - ol + 1) / 2) hol h3 hsm rfl
      bp ((1 <<< ((high - ol + 1) / 2)) - 1) hbp hinit
    have hblt := hchar0.1
    have hchar := hchar0.2
    have hvlt : ∀ i, i < (high - ol + 1) / 2 → ol + 2 * i < high := by
      intro i hi
      omega
    have hpchar : ∀ i, i < (high - ol + 1) / 2 →
        ((segMarkLoop ol high ((high - ol + 1) / 2) bp
          ((1 <<< ((high - ol + 1) / 2)) - 1)).testBit i = true ↔
          Nat.Prime (ol + 2 * i)) := by
      intro i hi
      rw [hchar i hi]
      have hib : (((1 <<< ((high - ol + 1) / 2)) - 1 : Nat)).testBit i = true := by
        rw [Nat.shiftLeft_eq, one_mul, Nat.testBit_two_pow_sub_one]
        simpa using hi
      rw [hib]
      simp only [true_and]
      constructor
      · intro hall
        by_contra hnp
        have hvodd : (ol + 2 * i) % 2 = 1 := by omega
        have hv3 : 3 ≤ ol + 2 * i := by omega
        have hq := Nat.minFac_prime (show ol + 2 * i ≠ 1 by omega)
        have hqd := Nat.minFac_dvd (ol + 2 * i)
        have hqsq : (ol + 2 * i).minFac * (ol + 2 * i).minFac ≤ ol + 2 * i := by
          have := Nat.minFac_sq_le_self (show 0 < ol + 2 * i by omega) hnp
          rwa [pow_two] at this
        have hq2 : (ol + 2 * i).minFac ≠ 2 := by
          intro h2
          rw [h2] at hqd
          omega
        have hqbp : (ol + 2 * i).minFac ∈ bp := by
          apply hcov _ hq hq2
          have := hvlt i hi
          omega
        exact hall _ hqbp ⟨hqd, hqsq⟩
      · intro hvp q hqbp
        rintro ⟨hqd, hqsq⟩
        obtain ⟨hqp, hq2⟩ := hbp q hqbp
        rcases hvp.eq_one_or_self_of_dvd q hqd with h1 | h1
        · omega
        · rw [h1] at hqsq
          have h3v : 3 ≤ ol + 2 * i := by omega
          nlinarith
    apply sorted_ext
    · rcases (show (low ≤ 2 ∧ 2 < high) ∨ ¬(low ≤ 2 ∧ 2 < high) from em _) with h | h
      · simp only [if_pos h, List.cons_append, List.nil_append]
        rw [List.sorted_cons]
        constructor
        · intro b hb
          obtain ⟨i, _, rfl⟩ := List.mem_map.mp hb
          omega
        · have hsb := scanBits_sorted _ _ 0 hblt
          exact List.Pairwise.map _ (fun hx => by omega) hsb
      · simp only [if_neg h, List.nil_append]
        have hsb := scanBits_sorted _ _ 0 hblt
        exact List.Pairwise.map _ (fun hx => by omega) hsb
    · exact List.Pairwise.sublist (List.filter_sublist _) (List.sorted_lt_range high)
    · intro x
      rw [List.mem_append, List.mem_map, hprimes2 x, List.mem_filter,
        List.mem_range]
      simp only [Bool.and_eq_true, decide_eq_true_eq]
      constructor
      · rintro (⟨rfl, hl2, h2h⟩ | ⟨i, hia, rfl⟩)
        · exact ⟨h2h, Nat.prime_two, hl2⟩
        · obtain ⟨j, hj, htb, rfl⟩ := (mem_scanBits _ _ 0 i hblt).mp hia
          simp only [Nat.zero_add]
          have hp := (hpchar j hj).mp htb
          exact ⟨hvlt j hj, hp, le_trans hlowle (by omega)⟩
      · rintro ⟨hxh, hxp, hlx⟩
        by_cases hx2 : x = 2
        · subst hx2
          exact Or.inl ⟨rfl, hlx, hxh⟩
        · right
          have hx2le := hxp.two_le
          have hxodd : x % 2 = 1 := by
            rcases hxp.eq_two_or_odd with h | h
            · exact absurd h hx2
            · exact h
          have holx : ol ≤ x := (hmem x hxodd (by omega)).mpr hlx
          refine ⟨(x - ol) / 2, ?_, by omega⟩
          apply (mem_scanBits _ _ 0 _ hblt).mpr
          have hjlt : (x - ol) / 2 < (high - ol + 1) / 2 := by omega
          refine ⟨(x - ol) / 2, hjlt, ?_, by omega⟩
          apply (hpchar _ hjlt).mpr
          have he : ol + 2 * ((x - ol) / 2) = x := by omega
          rw [he]
          exact hxp

/-! ## The sequential segmented driver -/

theorem base_primes_odd_spec (n : Nat) :
    (∀ p ∈ base_primes_odd n, Nat.Prime p ∧ 2 < p) ∧
      (∀ p, Nat.Prime p → p ≠ 2 → p * p ≤ n → p ∈ base_primes_odd n) := by
  unfold base_primes_odd
  rw [sieve_of_eratosthenes_nat_eq]
  constructor
  · intro p hp
    rw [List.mem_filter] at hp
    obtain ⟨hp1, hp2⟩ := hp
    rw [List.mem_filter] at hp1
    simp only [decide_eq_true_eq] at hp1 hp2
    exact ⟨hp1.2, hp2⟩
  · intro p hp hp2 hpsq
    rw [List.mem_filter, List.mem_filter]
    simp only [decide_eq_true_eq, List.mem_range]
    have hple : p ≤ Nat.sqrt n := Nat.le_sqrt.mpr hpsq
    rw [← isqrt_eq_sqrt] at hple
    have h2p := hp.two_le
    exact ⟨⟨by omega, hp⟩, by omega⟩

theorem filter_ge_zero (n : Nat) :
    (List.range n).filter (fun v => decide (Nat.Prime v) && decide (0 ≤ v)) =
      (List.range n).filter (fun v => decide (Nat.Prime v)) := by
  apply List.filter_congr
  intro a _
  simp

theorem seg_empty_small (a b : Nat) (hb : b ≤ 2) :
    (List.range b).filter (fun v => decide (Nat.Prime v) && decide (a ≤ v)) =
      [] := by
  rw [List.filter_eq_nil_iff]
  intro v hv
  have := List.mem_range.mp hv
  simp only [Bool.and_eq_true, decide_eq_true_eq, not_and]
  intro hp
  have := hp.two_le
  omega

theorem seg_end_empty (n ss k : Nat) (hk : n ≤ k * ss) :
    (List.range n).filter (fun v => decide (Nat.Prime v) && decide (k * ss ≤ v)) =
      [] := by
  rw [List.filter_eq_nil_iff]
  intro v hv
  have := List.mem_range.mp hv
  simp only [Bool.and_eq_true, decide_eq_true_eq, not_and]
  omega

theorem filter_range_sorted (n : Nat) (p : Nat → Bool) :
    ((List.range n).filter p).Sorted (· < ·) :=
  List.Pairwise.sublist (List.filter_sublist _) (List.sorted_lt_range n)

theorem seg_glue (ss n k : Nat) :
    (List.range n).filter (fun v => decide (Nat.Prime v) && decide (k * ss ≤ v)) =
      (List.range (min (k * ss + ss) n)).filter
        (fun v => decide (Nat.Prime v) && decide (k * ss ≤ v)) ++
      (List.range n).filter
        (fun v => decide (Nat.Prime v) && decide ((k + 1) * ss ≤ v)) := by
  have hks : (k + 1) * ss = k * ss + ss := by ring
  apply sorted_ext
  · exact filter_range_sorted _ _
  · refine List.pairwise_append.mpr
      ⟨filter_range_sorted _ _, filter_range_sorted _ _, ?_⟩
    intro x hx y hy
    rw [List.mem_filter, List.mem_range] at hx hy
    simp only [Bool.and_eq_true, decide_eq_true_eq] at hx hy
    omega
  · intro x
    simp only [List.mem_append, List.mem_filter, List.mem_range,
      Bool.and_eq_true, decide_eq_true_eq]
    constructor
    · rintro ⟨hlt, hp, hge⟩
      by_cases hc : x < min (k * ss + ss) n
      · exact Or.inl ⟨hc, hp, hge⟩
      · right
        refine ⟨hlt, hp, ?_⟩
        omega
    · rintro (⟨hlt, hp, hge⟩ | ⟨hlt, hp, hge⟩)
      · exact ⟨by omega, hp, hge⟩
      · exact ⟨hlt, hp, by omega⟩

theorem segLoop_spec (n ss : Nat) (hasCb : Bool) (hn : 2 < n) (hss : 1 ≤ ss) :
    ∀ m k acc tr, n ≤ (k + m) * ss →
      segLoop n ss (base_primes_odd n) hasCb (List.range' k m) (acc, tr) =
        (acc ++ (List.range n).filter
          (fun v => decide (Nat.Prime v) && decide (k * ss ≤ v)),
          if hasCb then tr ++ (List.range' k m).map (fun j => j + 1) else tr) := by
  intro m
  induction m with
  | zero =>
    intro k acc tr hbound
    rw [show (List.range' k 0) = ([] : List Nat) from rfl,
      seg_end_empty n ss k (by simpa using hbound)]
    cases hasCb <;> simp [segLoop]
  | succ m ih =>
    intro k acc tr hbound
    have hrange : List.range' k (m + 1) = k :: List.range' (k + 1) m := by
      simp [List.range']
    rw [hrange]
    simp only [segLoop]
    have hbound' : n ≤ (k + 1 + m) * ss := by
      have he : k + 1 + m = k + (m + 1) := by omega
      rw [he]
      exact hbound
    by_cases hh2 : min (k * ss + ss) n ≤ 2
    · rw [if_pos hh2]
      rw [ih (k + 1) acc (if hasCb then tr ++ [k + 1] else tr) hbound']
      have hglue := seg_glue ss n k
      rw [seg_empty_small (k * ss) _ hh2, List.nil_append] at hglue
      rw [← hglue]
      refine congrArg₂ Prod.mk rfl ?_
      cases hasCb <;> simp [List.append_assoc]
    · rw [if_neg hh2]
      have hbp := (base_primes_odd_spec n).1
      have hcov : ∀ p, Nat.Prime p → p ≠ 2 → p * p < min (k * ss + ss) n →
          p ∈ base_primes_odd n := by
        intro p hp h2 hsq
        exact (base_primes_odd_spec n).2 p hp h2 (by omega)
      have hengine := _sieve_segment_odd_only_eq (k * ss) (min (k * ss + ss) n)
        (base_primes_odd n) hbp hcov
      rw [hengine, ih (k + 1) _ (if hasCb then tr ++ [k + 1] else tr) hbound',
        List.append_assoc, ← seg_glue ss n k]
      refine congrArg₂ Prod.mk rfl ?_
      cases hasCb <;> simp [List.append_assoc]

theorem sieve_of_eratosthenes_ok (n : Nat) :
    sieve_of_eratosthenes (n : Int) =
      .ok ((List.range n).filter (fun v => decide (Nat.Prime v))) := by
  unfold sieve_of_eratosthenes
  rw [if_neg (show ¬ (n : Int) < 0 by omega),
    show ((n : Int)).toNat = n from rfl, sieve_of_eratosthenes_nat_eq]

theorem segmented_sieve_ok (n ss : Nat) (hasCb : Bool) (hn : 2 < n)
    (hss : 1 ≤ ss) :
    segmented_sieve (n : Int) ss hasCb =
      .ok ((List.range n).filter (fun v => decide (Nat.Prime v)),
        if hasCb then (List.range ((n + ss - 1) / ss)).map (fun j => j + 1)
        else []) := by
  unfold segmented_sieve
  rw [if_neg (show ¬ (n : Int) < 0 by omega),
    if_neg (show ¬ (n : Int) ≤ 2 by omega),
    show ((n : Int)).toNat = n from rfl,
    if_neg (show ¬ ss = 0 by omega)]
  show Except.ok (segLoop n ss (base_primes_odd n) hasCb
      (List.range ((n + ss - 1) / ss)) ([], [])) = _
  rw [List.range_eq_range' ((n + ss - 1) / ss),
    segLoop_spec n ss hasCb hn hss ((n + ss - 1) / ss) 0 [] []
      (by simpa using ceil_div_mul_le n ss hss)]
  rw [List.nil_append, show (0 * ss) = 0 from by ring, filter_ge_zero]
  cases hasCb <;> simp

theorem seg_glue_gen (ss n k B : Nat) (hkB : k + 1 ≤ B) :
    (List.range (min (B * ss) n)).filter
        (fun v => decide (Nat.Prime v) && decide (k * ss ≤ v)) =
      (List.range (min (k * ss + ss) n)).filter
        (fun v => decide (Nat.Prime v) && decide (k * ss ≤ v)) ++
      (List.range (min (B * ss) n)).filter
        (fun v => decide (Nat.Prime v) && decide ((k + 1) * ss ≤ v)) := by
  have hks : (k + 1) * ss = k * ss + ss := by ring
  have hkBs : (k + 1) * ss ≤ B * ss := Nat.mul_le_mul_right _ hkB
  apply sorted_ext
  · exact filter_range_sorted _ _
  · refine List.pairwise_append.mpr
      ⟨filter_range_sorted _ _, filter_range_sorted _ _, ?_⟩
    intro x hx y hy
    rw [List.mem_filter, List.mem_range] at hx hy
    simp only [Bool.and_eq_true, decide_eq_true_eq] at hx hy
    omega
  · intro x
    simp only [List.mem_append, List.mem_filter, List.mem_range,
      Bool.and_eq_true, decide_eq_true_eq]
    constructor
    · rintro ⟨hlt, hp, hge⟩
      by_cases hc : x < min (k * ss + ss) n
      · exact Or.inl ⟨hc, hp, hge⟩
      · right
        refine ⟨hlt, hp, ?_⟩
        omega
    · rintro (⟨hlt, hp, hge⟩ | ⟨hlt, hp, hge⟩)
      · exact ⟨by omega, hp, hge⟩
      · exact ⟨hlt, hp, by omega⟩

theorem workerLoop_spec (n ss : Nat) (hasC : Bool) (hn : 2 < n)
    (hss : 1 ≤ ss) :
    ∀ m k acc cnt,
      workerLoop n ss (base_primes_odd n) hasC (List.range' k m) (acc, cnt) =
        (acc ++ (List.range (min ((k + m) * ss) n)).filter
          (fun v => decide (Nat.Prime v) && decide (k * ss ≤ v)),
          if hasC then cnt + m else cnt) := by
  intro m
  induction m with
  | zero =>
    intro k acc cnt
    have hnil : (List.range (min ((k + 0) * ss) n)).filter
        (fun v => decide (Nat.Prime v) && decide (k * ss ≤ v)) = [] := by
      rw [List.filter_eq_nil_iff]
      intro v hv
      have hvlt := List.mem_range.mp hv
      simp only [Bool.and_eq_true, decide_eq_true_eq, not_and]
      intro _
      have hk0 : (k + 0) * ss = k * ss := by ring
      omega
    rw [hnil]
    cases hasC <;> simp [workerLoop]
  | succ m ih =>
    intro k acc cnt
    have hrange : List.range' k (m + 1) = k :: List.range' (k + 1) m := by
      simp [List.range']
    rw [hrange]
    simp only [workerLoop]
    have hglue := seg_glue_gen ss n k (k + m + 1) (by omega)
    have hadd1 : k + 1 + m = k + m + 1 := by omega
    by_cases hh2 : min (k * ss + ss) n ≤ 2
    · rw [if_pos hh2]
      rw [ih (k + 1) acc (if hasC then cnt + 1 else cnt)]
      rw [seg_empty_small (k * ss) _ hh2, List.nil_append] at hglue
      rw [hadd1, ← hglue, show k + (m + 1) = k + m + 1 from by omega]
      refine congrArg₂ Prod.mk rfl ?_
      cases hasC <;> simp <;> omega
    · rw [if_neg hh2]
      have hbp := (base_primes_odd_spec n).1
      have hcov : ∀ p, Nat.Prime p → p ≠ 2 → p * p < min (k * ss + ss) n →
          p ∈ base_primes_odd n := by
        intro p hp h2 hsq
        exact (base_primes_odd_spec n).2 p hp h2 (by omega)
      have hengine := _sieve_segment_odd_only_eq (k * ss) (min (k * ss + ss) n)
        (base_primes_odd n) hbp hcov
      rw [hengine, ih (k + 1) _ (if hasC then cnt + 1 else cnt),
        List.append_assoc, hadd1, ← hglue,
        show k + (m + 1) = k + m + 1 from by omega]
      refine congrArg₂ Prod.mk rfl ?_
      cases hasC <;> simp <;> omega

theorem _worker_process_segment_chunk_spec (s e n ss : Nat) (hasC : Bool)
    (hn : 2 < n) (hss : 1 ≤ ss) (hse : s ≤ e) :
    _worker_process_segment_chunk s e n ss (base_primes_odd n) hasC =
      ((List.range (min (e * ss) n)).filter
        (fun v => decide (Nat.Prime v) && decide (s * ss ≤ v)),
        if hasC then e - s else 0) := by
  unfold _worker_process_segment_chunk
  rw [workerLoop_spec n ss hasC hn hss (e - s) s [] 0,
    show s + (e - s) = e from by omega, List.nil_append]
  cases hasC <;> simp

theorem merge2_sep : ∀ (fuel : Nat) (xs ys : List Nat),
    (∀ x ∈ xs, ∀ y ∈ ys, x ≤ y) → merge2 fuel xs ys = xs ++ ys := by
  intro fuel
  induction fuel with
  | zero => intro xs ys _; rfl
  | succ f ih =>
    intro xs ys hsep
    match xs, ys with
    | [], ys => simp [merge2]
    | x :: xs, [] => simp [merge2]
    | x :: xs, y :: ys =>
      have hxy : x ≤ y := hsep x (by simp) y (by simp)
      simp only [merge2, if_pos hxy]
      rw [ih xs (y :: ys) (fun a ha b hb => hsep a (by simp [ha]) b hb)]
      simp

theorem heapq_merge_cons (l : List Nat) (ls : List (List Nat)) :
    heapq_merge (l :: ls) =
      merge2 (l.length + (heapq_merge ls).length) l (heapq_merge ls) := rfl

theorem lt_ceil_iff (cs segN i : Nat) (hcs : 1 ≤ cs) :
    i < (segN + cs - 1) / cs ↔ i * cs < segN := by
  have hd := Nat.div_mul_le_self (segN + cs - 1) cs
  have hc := ceil_div_mul_le segN cs hcs
  constructor
  · intro h
    have h2 : (i + 1) * cs ≤ (segN + cs - 1) / cs * cs :=
      Nat.mul_le_mul_right _ h
    have h3 : (i + 1) * cs = i * cs + cs := by ring
    omega
  · intro h
    by_contra hcon
    have h2 : (segN + cs - 1) / cs * cs ≤ i * cs :=
      Nat.mul_le_mul_right _ (by omega)
    omega

theorem takeWhile_chunk (segN cs : Nat) (hcs : 1 ≤ cs) :
    ∀ m t, (List.range' t m).takeWhile (fun i => decide (i * cs < segN)) =
      List.range' t (min m ((segN + cs - 1) / cs - t)) := by
  intro m
  induction m with
  | zero => intro t; simp
  | succ m ih =>
    intro t
    rw [show List.range' t (m + 1) = t :: List.range' (t + 1) m from by
      simp [List.range']]
    rw [List.takeWhile_cons]
    by_cases h : t * cs < segN
    · have ht : t < (segN + cs - 1) / cs := (lt_ceil_iff cs segN t hcs).mpr h
      rw [if_pos (by simpa using h), ih (t + 1)]
      have hmin : min (m + 1) ((segN + cs - 1) / cs - t) =
          (min m ((segN + cs - 1) / cs - (t + 1))) + 1 := by omega
      rw [hmin]
      simp [List.range']
    · have ht : ¬ t < (segN + cs - 1) / cs := fun hc =>
        h ((lt_ceil_iff cs segN t hcs).mp hc)
      rw [if_neg (by simpa using h)]
      have hmin : min (m + 1) ((segN + cs - 1) / cs - t) = 0 := by omega
      rw [hmin]
      rfl

theorem workerChunks_eq (segN cs nw : Nat) (hcs : 1 ≤ cs) :
    workerChunks segN cs nw =
      (List.range (min nw ((segN + cs - 1) / cs))).map
        (fun i => (i * cs, min (i * cs + cs) segN)) := by
  unfold workerChunks
  rw [List.range_eq_range' nw,
    List.takeWhile_map (fun i => (i * cs, min (i * cs + cs) segN))
      (fun se => decide (se.1 < segN)) (List.range' 0 nw)]
  rw [show ((fun se : Nat × Nat => decide (se.1 < segN)) ∘
      (fun i => (i * cs, min (i * cs + cs) segN))) =
      (fun i => decide (i * cs < segN)) from rfl]
  rw [takeWhile_chunk segN cs hcs nw 0, List.range_eq_range']
  simp

theorem mergeChunks (css n : Nat) : ∀ m t,
    heapq_merge ((List.range' t m).map
      (fun i => (List.range (min (i * css + css) n)).filter
        (fun v => decide (Nat.Prime v) && decide (i * css ≤ v)))) =
    (List.range (min ((t + m) * css) n)).filter
      (fun v => decide (Nat.Prime v) && decide (t * css ≤ v)) := by
  intro m
  induction m with
  | zero =>
    intro t
    have h0 : (t + 0) * css = t * css := by ring
    rw [h0]
    have : (List.range (min (t * css) n)).filter
        (fun v => decide (Nat.Prime v) && decide (t * css ≤ v)) = [] := by
      rw [List.filter_eq_nil_iff]
      intro v hv
      have := List.mem_range.mp hv
      simp only [Bool.and_eq_true, decide_eq_true_eq, not_and]
      intro _
      omega
    rw [this]
    rfl
  | succ m ih =>
    intro t
    rw [show List.range' t (m + 1) = t :: List.range' (t + 1) m from by
      simp [List.range']]
    rw [List.map_cons, heapq_merge_cons, ih (t + 1)]
    have hsep : ∀ x ∈ (List.range (min (t * css + css) n)).filter
        (fun v => decide (Nat.Prime v) && decide (t * css ≤ v)),
        ∀ y ∈ (List.range (min ((t + 1 + m) * css) n)).filter
          (fun v => decide (Nat.Prime v) && decide ((t + 1) * css ≤ v)),
        x ≤ y := by
      intro x hx y hy
      rw [List.mem_filter, List.mem_range] at hx hy
      simp only [Bool.and_eq_true, decide_eq_true_eq] at hx hy
      have h1 : (t + 1) * css = t * css + css := by ring
      omega
    rw [merge2_sep _ _ _ hsep]
    have hglue := seg_glue_gen css n t (t + 1 + m) (by omega)
    rw [show (t + (m + 1)) * css = (t + 1 + m) * css from by ring]
    exact hglue.symm

theorem countChunks (cs segN : Nat) : ∀ m t,
    ((List.range' t m).map (fun i => min (i * cs + cs) segN - i * cs)).sum =
      min ((t + m) * cs) segN - t * cs := by
  intro m
  induction m with
  | zero =>
    intro t
    have h0 : (t + 0) * cs = t * cs := by ring
    rw [h0]
    simp
  | succ m ih =>
    intro t
    rw [show List.range' t (m + 1) = t :: List.range' (t + 1) m from by
      simp [List.range']]
    rw [List.map_cons, List.sum_cons, ih (t + 1)]
    have h1 : (t + 1) * cs = t * cs + cs := by ring
    have h2 : (t + (m + 1)) * cs = (t + 1 + m) * cs := by ring
    have h3 : t * cs + cs ≤ (t + 1 + m) * cs := by
      have := Nat.mul_le_mul_right cs (show t + 1 ≤ t + 1 + m by omega)
      omega
    omega

theorem min_mul_right_nat (a b c : Nat) : min a b * c = min (a * c) (b * c) := by
  rcases le_total a b with h | h
  · rw [min_eq_left h, min_eq_left (Nat.mul_le_mul_right c h)]
  · rw [min_eq_right h, min_eq_right (Nat.mul_le_mul_right c h)]

theorem parallelRun_ok (nn ss nw : Nat) (hasC : Bool) (hn : 2 < nn)
    (hss : 1 ≤ ss) (hnw : 1 ≤ nw) (hwseg : nw ≤ (nn + ss - 1) / ss) :
    parallelRun nn ss nw hasC =
      ((List.range nn).filter (fun v => decide (Nat.Prime v)),
        if hasC then (nn + ss - 1) / ss else 0) := by
  have hnnle : nn ≤ (nn + ss - 1) / ss * ss := ceil_div_mul_le nn ss hss
  have hsegle : (nn + ss - 1) / ss ≤
      ((nn + ss - 1) / ss + nw - 1) / nw * nw := ceil_div_mul_le _ nw hnw
  simp only [parallelRun]
  set segN := (nn + ss - 1) / ss with hsegN
  set cs := (segN + nw - 1) / nw with hcs
  clear_value segN
  clear_value cs
  have hsegN1 : 1 ≤ segN := by
    by_contra h
    have h0 : segN = 0 := by omega
    rw [h0, Nat.zero_mul] at hnnle
    omega
  have hcs1 : 1 ≤ cs := by
    by_contra h
    have h0 : cs = 0 := by omega
    rw [h0, Nat.zero_mul] at hsegle
    omega
  rw [workerChunks_eq segN cs nw hcs1]
  set K := (segN + cs - 1) / cs with hK
  clear_value K
  have hsegcs : segN ≤ K * cs := by
    rw [hK]
    exact ceil_div_mul_le segN cs hcs1
  have hKnw : K ≤ nw := by
    have h1 : cs * nw = nw * cs := Nat.mul_comm _ _
    have h2 : segN + cs - 1 ≤ cs - 1 + nw * cs := by omega
    have h3 : (segN + cs - 1) / cs ≤ (cs - 1 + nw * cs) / cs :=
      Nat.div_le_div_right h2
    have h4 : (cs - 1 + nw * cs) / cs = (cs - 1) / cs + nw :=
      Nat.add_mul_div_right _ _ (by omega)
    have h5 : (cs - 1) / cs = 0 := Nat.div_eq_of_lt (by omega)
    rw [hK]
    omega
  rw [min_eq_right hKnw]
  have hres : ((List.range K).map
        (fun i => (i * cs, min (i * cs + cs) segN))).map
      (fun se => _worker_process_segment_chunk se.1 se.2 nn ss
        (base_primes_odd nn) hasC) =
      (List.range K).map (fun i =>
        ((List.range (min (i * (cs * ss) + cs * ss) nn)).filter
          (fun v => decide (Nat.Prime v) && decide (i * (cs * ss) ≤ v)),
          if hasC then min (i * cs + cs) segN - i * cs else 0)) := by
    rw [List.map_map]
    refine List.map_congr_left ?_
    intro i hi
    have hiK : i < K := List.mem_range.mp hi
    have hicslt : i * cs < segN := by
      rw [hK] at hiK
      exact (lt_ceil_iff cs segN i hcs1).mp hiK
    have hse : i * cs ≤ min (i * cs + cs) segN :=
      le_min (by omega) (by omega)
    show _worker_process_segment_chunk (i * cs) (min (i * cs + cs) segN)
        nn ss (base_primes_odd nn) hasC = _
    rw [_worker_process_segment_chunk_spec (i * cs) (min (i * cs + cs) segN)
      nn ss hasC hn hss hse]
    have e1 : min (i * cs + cs) segN * ss =
        min ((i * cs + cs) * ss) (segN * ss) := min_mul_right_nat _ _ _
    have e2 : min (min ((i * cs + cs) * ss) (segN * ss)) nn =
        min ((i * cs + cs) * ss) nn := by omega
    have e3 : (i * cs + cs) * ss = i * (cs * ss) + cs * ss := by ring
    have e4 : i * cs * ss = i * (cs * ss) := by ring
    rw [e1, e2, e3, e4]
  rw [hres]
  have hfst : ((List.range K).map (fun i =>
      ((List.range (min (i * (cs * ss) + cs * ss) nn)).filter
        (fun v => decide (Nat.Prime v) && decide (i * (cs * ss) ≤ v)),
        if hasC then min (i * cs + cs) segN - i * cs else 0))).map
      Prod.fst =
      (List.range K).map (fun i =>
        (List.range (min (i * (cs * ss) + cs * ss) nn)).filter
          (fun v => decide (Nat.Prime v) && decide (i * (cs * ss) ≤ v))) := by
    rw [List.map_map]
    rfl
  have hsnd : ((List.range K).map (fun i =>
      ((List.range (min (i * (cs * ss) + cs * ss) nn)).filter
        (fun v => decide (Nat.Prime v) && decide (i * (cs * ss) ≤ v)),
        if hasC then min (i * cs + cs) segN - i * cs else 0))).map
      Prod.snd =
      (List.range K).map (fun i =>
        if hasC then min (i * cs + cs) segN - i * cs else 0) := by
    rw [List.map_map]
    rfl
  rw [hfst, hsnd]
  refine congrArg₂ Prod.mk ?_ ?_
  · rw [List.range_eq_range' K, mergeChunks (cs * ss) nn K 0, Nat.zero_add,
      Nat.zero_mul, filter_ge_zero]
    have hbig : nn ≤ K * (cs * ss) := by
      have h1 : segN * ss ≤ K * cs * ss := Nat.mul_le_mul_right ss hsegcs
      have h2 : K * cs * ss = K * (cs * ss) := by ring
      omega
    rw [min_eq_right hbig]
  · have hsum_true : ((List.range K).map
        (fun i => min (i * cs + cs) segN - i * cs)).sum = segN := by
      rw [List.range_eq_range' K, countChunks cs segN K 0, Nat.zero_add,
        Nat.zero_mul, Nat.sub_zero, min_eq_right hsegcs]
    cases hasC with
    | false => simp
    | true => simpa using hsum_true

theorem parallel_if_ok (n ss w0 : Nat) (hasC : Bool) (hn : 2 < n)
    (hss : 1 ≤ ss) (hw : 1 ≤ w0) :
    (if min w0 ((n + ss - 1) / ss) = 0 then
        (Except.error PyError.zeroDivisionError :
          Except PyError (List Nat × Nat))
      else Except.ok (parallelRun n ss (min w0 ((n + ss - 1) / ss)) hasC)) =
      .ok ((List.range n).filter (fun v => decide (Nat.Prime v)),
        if hasC then (n + ss - 1) / ss else 0) := by
  have hnnle : n ≤ (n + ss - 1) / ss * ss := ceil_div_mul_le n ss hss
  have hseg1 : 1 ≤ (n + ss - 1) / ss := by
    rcases Nat.eq_zero_or_pos ((n + ss - 1) / ss) with h0 | h1
    · rw [h0, Nat.zero_mul] at hnnle
      omega
    · exact h1
  rw [if_neg (Nat.pos_iff_ne_zero.mp (lt_min (show 0 < w0 from hw)
    (show 0 < (n + ss - 1) / ss from hseg1)))]
  rw [parallelRun_ok n ss (min w0 ((n + ss - 1) / ss)) hasC hn hss
    (le_min hw hseg1) (min_le_right _ _)]

theorem parallel_segmented_sieve_ok (n ss w0 cpu : Nat) (nwOpt : Option Nat)
    (hasC : Bool) (hn : 2 < n) (hss : 1 ≤ ss) (hw : 1 ≤ w0)
    (hmatch : (match nwOpt with
      | none => numWorkersDefault cpu
      | some k => k) = w0) :
    parallel_segmented_sieve (n : Int) nwOpt cpu ss hasC =
      .ok ((List.range n).filter (fun v => decide (Nat.Prime v)),
        if hasC then (n + ss - 1) / ss else 0) := by
  rcases nwOpt with _ | k
  · unfold parallel_segmented_sieve
    rw [if_neg (show ¬ (n : Int) < 0 by omega),
      if_neg (show ¬ (n : Int) ≤ 2 by omega),
      show ((n : Int)).toNat = n from rfl,
      if_neg (show ¬ ss = 0 by omega)]
    show (if min (numWorkersDefault cpu) ((n + ss - 1) / ss) = 0 then
        Except.error PyError.zeroDivisionError
      else Except.ok (parallelRun n ss
        (min (numWorkersDefault cpu) ((n + ss - 1) / ss)) hasC)) = _
    rw [show numWorkersDefault cpu = w0 from hmatch]
    exact parallel_if_ok n ss w0 hasC hn hss hw
  · unfold parallel_segmented_sieve
    rw [if_neg (show ¬ (n : Int) < 0 by omega),
      if_neg (show ¬ (n : Int) ≤ 2 by omega),
      show ((n : Int)).toNat = n from rfl,
      if_neg (show ¬ ss = 0 by omega)]
    show (if min k ((n + ss - 1) / ss) = 0 then
        Except.error PyError.zeroDivisionError
      else Except.ok (parallelRun n ss
        (min k ((n + ss - 1) / ss)) hasC)) = _
    rw [show k = w0 from hmatch]
    exact parallel_if_ok n ss w0 hasC hn hss hw

theorem segmented_sieve_cases (n : Int) (ss : Nat) (cb : Bool) :
    segmented_sieve n ss cb =
      if n < 0 then .error .valueError
      else if n ≤ 2 then .ok ([], [])
      else if ss = 0 then .error .zeroDivisionError
      else .ok (segLoop n.toNat ss (base_primes_odd n.toNat) cb
        (List.range ((n.toNat + ss - 1) / ss)) ([], [])) := rfl

theorem parallel_sieve_cases (n : Int) (nwOpt : Option Nat) (cpu ss : Nat)
    (cb : Bool) :
    parallel_segmented_sieve n nwOpt cpu ss cb =
      if n < 0 then .error .valueError
      else if n ≤ 2 then .ok ([], 0)
      else if ss = 0 then .error .zeroDivisionError
      else if min (match nwOpt with
          | none => numWorkersDefault cpu
          | some k => k) ((n.toNat + ss - 1) / ss) = 0 then
        .error .zeroDivisionError
      else .ok (parallelRun n.toNat ss (min (match nwOpt with
          | none => numWorkersDefault cpu
          | some k => k) ((n.toNat + ss - 1) / ss)) cb) := rfl

theorem generate_primes_cases (n : Int) (sp par : Bool)
    (force : Option ForceAlgorithm) (cpu : Nat) :
    generate_primes n sp par force cpu =
      if n < 0 then .error .valueError
      else if n ≤ 2 then .ok []
      else if force = some ForceAlgorithm.segmented ∨
          force = some ForceAlgorithm.parallel ∨
          (force = none ∧ SEGMENTED_SIEVE_THRESHOLD ≤ n) then
        if force = some ForceAlgorithm.parallel ∨
            (par ∧ PARALLEL_SIEVE_THRESHOLD ≤ n) then
          (parallel_segmented_sieve n none cpu DEFAULT_SEGMENT_SIZE sp).map
            Prod.fst
        else (segmented_sieve n DEFAULT_SEGMENT_SIZE sp).map Prod.fst
      else .ok (sieve_of_eratosthenes_nat n.toNat) := rfl

theorem generate_primes_small (n : Int) (sp par : Bool)
    (force : Option ForceAlgorithm) (cpu : Nat) (h0 : ¬ n < 0) (h2 : n ≤ 2) :
    generate_primes n sp par force cpu = .ok [] := by
  rw [generate_primes_cases, if_neg h0, if_pos h2]

theorem generate_primes_ok (n : Nat) (hn : 2 < n) (sp par : Bool)
    (force : Option ForceAlgorithm) (cpu : Nat) :
    generate_primes (n : Int) sp par force cpu =
      .ok ((List.range n).filter (fun v => decide (Nat.Prime v))) := by
  rw [generate_primes_cases, if_neg (show ¬ (n : Int) < 0 by omega),
    if_neg (show ¬ (n : Int) ≤ 2 by omega)]
  by_cases hseg : force = some ForceAlgorithm.segmented ∨
      force = some ForceAlgorithm.parallel ∨
      (force = none ∧ SEGMENTED_SIEVE_THRESHOLD ≤ (n : Int))
  · rw [if_pos hseg]
    by_cases hpar : force = some ForceAlgorithm.parallel ∨
        (par = true ∧ PARALLEL_SIEVE_THRESHOLD ≤ (n : Int))
    · rw [if_pos hpar,
        parallel_segmented_sieve_ok n DEFAULT_SEGMENT_SIZE
          (numWorkersDefault cpu) cpu none sp hn (by decide)
          (le_max_left 1 (cpu - 1)) rfl]
      rfl
    · rw [if_neg hpar, segmented_sieve_ok n DEFAULT_SEGMENT_SIZE sp hn
        (by decide)]
      rfl
  · rw [if_neg hseg, show ((n : Int)).toNat = n from rfl,
      sieve_of_eratosthenes_nat_eq]

theorem generate_primes_error_iff (n : Int) (sp par : Bool)
    (force : Option ForceAlgorithm) (cpu : Nat) :
    generate_primes n sp par force cpu = .error .valueError ↔ n < 0 := by
  constructor
  · intro h
    by_contra hneg
    by_cases h2 : n ≤ 2
    · rw [generate_primes_small n sp par force cpu hneg h2] at h
      exact absurd h (by simp)
    · have hm : ((n.toNat : Nat) : Int) = n := Int.toNat_of_nonneg (by omega)
      rw [← hm, generate_primes_ok n.toNat (by omega) sp par force cpu] at h
      exact absurd h (by simp)
  · intro h
    rw [generate_primes_cases, if_pos h]

theorem sieve_error_iff (n : Int) :
    sieve_of_eratosthenes n = .error .valueError ↔ n < 0 := by
  unfold sieve_of_eratosthenes
  by_cases h : n < 0
  · simp [h]
  · simp [h]

theorem segmented_error_iff (n : Int) (ss : Nat) (cb : Bool) :
    segmented_sieve n ss cb = .error .valueError ↔ n < 0 := by
  rw [segmented_sieve_cases]
  by_cases h0 : n < 0
  · simp [h0]
  · by_cases h2 : n ≤ 2
    · simp [h0, h2]
    · by_cases h3 : ss = 0 <;> simp [h0, h2, h3]

theorem parallel_error_iff (n : Int) (nwOpt : Option Nat) (cpu ss : Nat)
    (cb : Bool) :
    parallel_segmented_sieve n nwOpt cpu ss cb = .error .valueError ↔
      n < 0 := by
  rw [parallel_sieve_cases]
  by_cases h0 : n < 0
  · simp [h0]
  · by_cases h2 : n ≤ 2
    · simp [h0, h2]
    · by_cases h3 : ss = 0
      · simp [h0, h2, h3]
      · by_cases h4 : min (match nwOpt with
            | none => numWorkersDefault cpu
            | some k => k) ((n.toNat + ss - 1) / ss) = 0 <;>
          simp [h0, h2, h3, h4]

theorem sieve_of_eratosthenes_small (n : Int) (h0 : ¬ n < 0) (h2 : n ≤ 2) :
    sieve_of_eratosthenes n = .ok [] := by
  unfold sieve_of_eratosthenes
  rw [if_neg h0]
  unfold sieve_of_eratosthenes_nat
  rw [if_pos (show n.toNat ≤ 2 by omega)]

theorem segmented_sieve_small (n : Int) (ss : Nat) (cb : Bool)
    (h0 : ¬ n < 0) (h2 : n ≤ 2) :
    segmented_sieve n ss cb = .ok ([], []) := by
  rw [segmented_sieve_cases, if_neg h0, if_pos h2]

theorem parallel_sieve_small (n : Int) (nwOpt : Option Nat) (cpu ss : Nat)
    (cb : Bool) (h0 : ¬ n < 0) (h2 : n ≤ 2) :
    parallel_segmented_sieve n nwOpt cpu ss cb = .ok ([], 0) := by
  rw [parallel_sieve_cases, if_neg h0, if_pos h2]

theorem range'_glue (b : Nat) : ∀ a s,
    List.range' s a ++ List.range' (s + a) b = List.range' s (a + b) := by
  intro a
  induction a with
  | zero => intro s; simp
  | succ a ih =>
    intro s
    rw [show List.range' s (a + 1) = s :: List.range' (s + 1) a from by
      simp [List.range'],
      show List.range' s (a + 1 + b) = s :: List.range' (s + 1) (a + b) from by
      rw [show a + 1 + b = (a + b) + 1 from by omega]
      simp [List.range'],
      List.cons_append, show s + (a + 1) = s + 1 + a from by omega,
      ih (s + 1)]

theorem chunksFlatten_empty (cs segN : Nat) : ∀ m t, segN ≤ t * cs →
    ((List.range' t m).map (fun i => List.range' (i * cs)
      (min (i * cs + cs) segN - i * cs))).flatten = [] := by
  intro m
  induction m with
  | zero => intro t _; rfl
  | succ m ih =>
    intro t ht
    rw [show List.range' t (m + 1) = t :: List.range' (t + 1) m from by
      simp [List.range'], List.map_cons, List.flatten_cons]
    have h1 : min (t * cs + cs) segN - t * cs = 0 := by omega
    rw [h1]
    have h2 : segN ≤ (t + 1) * cs := by
      have h3 : (t + 1) * cs = t * cs + cs := by ring
      omega
    rw [ih (t + 1) h2]
    rfl

theorem chunksFlatten (cs segN : Nat) : ∀ m t,
    ((List.range' t m).map (fun i => List.range' (i * cs)
      (min (i * cs + cs) segN - i * cs))).flatten =
    List.range' (t * cs) (min ((t + m) * cs) segN - t * cs) := by
  intro m
  induction m with
  | zero =>
    intro t
    have h0 : (t + 0) * cs = t * cs := by ring
    rw [h0]
    simp
  | succ m ih =>
    intro t
    rw [show List.range' t (m + 1) = t :: List.range' (t + 1) m from by
      simp [List.range'], List.map_cons, List.flatten_cons]
    by_cases hc : t * cs + cs ≤ segN
    · have h1 : min (t * cs + cs) segN - t * cs = cs := by omega
      rw [h1, ih (t + 1), show (t + 1) * cs = t * cs + cs from by ring,
        range'_glue]
      have hmono : t * cs + cs ≤ (t + 1 + m) * cs := by
        have h4 : (t + 1) * cs ≤ (t + 1 + m) * cs :=
          Nat.mul_le_mul_right cs (by omega)
        have h5 : (t + 1) * cs = t * cs + cs := by ring
        omega
      have harg : cs + (min ((t + 1 + m) * cs) segN - (t * cs + cs)) =
          min ((t + (m + 1)) * cs) segN - t * cs := by
        have h6 : (t + (m + 1)) * cs = (t + 1 + m) * cs := by ring
        omega
      rw [harg]
    · have h1 : min (t * cs + cs) segN - t * cs = segN - t * cs := by omega
      rw [h1]
      have h2 : segN ≤ (t + 1) * cs := by
        have h3 : (t + 1) * cs = t * cs + cs := by ring
        omega
      rw [chunksFlatten_empty cs segN m (t + 1) h2, List.append_nil]
      have h3 : min ((t + (m + 1)) * cs) segN = segN := by
        have hmono : (t + 1) * cs ≤ (t + (m + 1)) * cs :=
          Nat.mul_le_mul_right cs (by omega)
        have h4 : (t + 1) * cs = t * cs + cs := by ring
        omega
      rw [h3]

theorem sorted_getLast : ∀ (l : List Nat), l.Pairwise (· < ·) →
    ∀ x, x ∈ l → (∀ y ∈ l, y ≤ x) → l.getLast? = some x := by
  intro l
  induction l with
  | nil => intro _ x hx; cases hx
  | cons a t ih =>
    intro hp x hx hmax
    cases t with
    | nil =>
      have hxa : x = a := by simpa using hx
      rw [hxa]
      rfl
    | cons b t2 =>
      have hab : a < b := (List.pairwise_cons.mp hp).1 b (by simp)
      have hx2 : x ∈ b :: t2 := by
        rcases List.mem_cons.mp hx with rfl | h
        · exact absurd (hmax b (by simp)) (by omega)
        · exact h
      rw [List.getLast?_cons_cons]
      exact ih (List.pairwise_cons.mp hp).2 x hx2
        (fun y hy => hmax y (by simp [hy]))

theorem sieve_nat_length (n : Nat) (hn : 4 ≤ n) :
    (sieve_of_eratosthenes_nat n).length =
      1 + popCount (sieveSize n) (sieveBuf n) := by
  unfold sieve_of_eratosthenes_nat
  rw [if_neg (by omega), if_neg (by omega), List.length_cons,
    List.length_map, scanBits_length_popCount _ _ _ (sieveBuf_lt n)]
  omega

theorem pop_1e5 : popCount (sieveSize 100000) (sieveBuf 100000) = 9591 := by
  decide!

theorem pop_1e6 : popCount (sieveSize 1000000) (sieveBuf 1000000) = 78497 := by
  decide!

theorem count_1e5 :
    ((List.range 100000).filter (fun v => decide (Nat.Prime v))).length =
      9592 := by
  rw [← sieve_of_eratosthenes_nat_eq, sieve_nat_length 100000 (by norm_num),
    pop_1e5]

theorem count_1e6 :
    ((List.range 1000000).filter (fun v => decide (Nat.Prime v))).length =
      78498 := by
  rw [← sieve_of_eratosthenes_nat_eq, sieve_nat_length 1000000 (by norm_num),
    pop_1e6]

theorem last_1e5 :
    ((List.range 100000).filter (fun v => decide (Nat.Prime v))).getLast? =
      some 99991 := by
  apply sorted_getLast _ (filter_range_sorted _ _) 99991
  · rw [List.mem_filter, List.mem_range, decide_eq_true_eq]
    exact ⟨by norm_num, by norm_num⟩
  · intro y hy
    rw [List.mem_filter, List.mem_range, decide_eq_true_eq] at hy
    obtain ⟨hlt, hp⟩ := hy
    by_contra hgt
    push_neg at hgt
    have h8 : y = 99992 ∨ y = 99993 ∨ y = 99994 ∨ y = 99995 ∨ y = 99996 ∨
        y = 99997 ∨ y = 99998 ∨ y = 99999 := by omega
    rcases h8 with rfl | rfl | rfl | rfl | rfl | rfl | rfl | rfl <;>
      revert hp <;> norm_num

theorem last_1e6 :
    ((List.range 1000000).filter (fun v => decide (Nat.Prime v))).getLast? =
      some 999983 := by
  apply sorted_getLast _ (filter_range_sorted _ _) 999983
  · rw [List.mem_filter, List.mem_range, decide_eq_true_eq]
    exact ⟨by norm_num, by norm_num⟩
  · intro y hy
    rw [List.mem_filter, List.mem_range, decide_eq_true_eq] at hy
    obtain ⟨hlt, hp⟩ := hy
    by_contra hgt
    push_neg at hgt
    have h16 : y = 999984 ∨ y = 999985 ∨ y = 999986 ∨ y = 999987 ∨
        y = 999988 ∨ y = 999989 ∨ y = 999990 ∨ y = 999991 ∨ y = 999992 ∨
        y = 999993 ∨ y = 999994 ∨ y = 999995 ∨ y = 999996 ∨ y = 999997 ∨
        y = 999998 ∨ y = 999999 := by omega
    rcases h16 with rfl | rfl | rfl | rfl | rfl | rfl | rfl | rfl | rfl |
      rfl | rfl | rfl | rfl | rfl | rfl | rfl <;> revert hp <;> norm_num

/-- C1: for every integer `n ≥ 0`, `sieve_of_eratosthenes n` succeeds and
returns exactly the primes strictly below `n` as a strictly increasing
sequence, and returns the empty sequence for `n ≤ 2`. -/
theorem C1_sieve_correct (n : Int) (hn : 0 ≤ n) :
    sieve_of_eratosthenes n =
      .ok ((List.range n.toNat).filter (fun v => decide (Nat.Prime v))) ∧
    ((List.range n.toNat).filter
      (fun v => decide (Nat.Prime v))).Pairwise (· < ·) ∧
    (∀ p : Nat, p ∈ (List.range n.toNat).filter
      (fun v => decide (Nat.Prime v)) ↔ Nat.Prime p ∧ (p : Int) < n) ∧
    (n ≤ 2 → sieve_of_eratosthenes n = .ok []) := by
  have hm : ((n.toNat : Nat) : Int) = n := Int.toNat_of_nonneg hn
  refine ⟨?_, filter_range_sorted _ _, ?_, ?_⟩
  · conv_lhs => rw [← hm]
    exact sieve_of_eratosthenes_ok n.toNat
  · intro p
    rw [List.mem_filter, List.mem_range, decide_eq_true_eq]
    constructor
    · rintro ⟨hlt, hp⟩
      exact ⟨hp, by omega⟩
    · rintro ⟨hp, hlt⟩
      exact ⟨by omega, hp⟩
  · intro h2
    exact sieve_of_eratosthenes_small n (by omega) h2

theorem C1_witness :
    0 ≤ (10 : Int) ∧
      sieve_of_eratosthenes 10 =
        .ok ((List.range (10 : Int).toNat).filter
          (fun v => decide (Nat.Prime v))) :=
  ⟨by decide, (C1_sieve_correct 10 (by decide)).1⟩

/-- C2: for every `n ≥ 0`, `segment_size ≥ 1` and worker count `≥ 1`, the
sequential segmented sieve and the parallel chunked-and-merged path both
return the same sequence as `sieve_of_eratosthenes n`, which is strictly
increasing and duplicate-free. -/
theorem C2_three_sieves_agree (n : Int) (ss nw cpu : Nat) (hasCb : Bool)
    (hn : 0 ≤ n) (hss : 1 ≤ ss) (hnw : 1 ≤ nw) :
    (segmented_sieve n ss hasCb).map Prod.fst = sieve_of_eratosthenes n ∧
    (parallel_segmented_sieve n (some nw) cpu ss hasCb).map Prod.fst =
      sieve_of_eratosthenes n ∧
    sieve_of_eratosthenes n =
      .ok ((List.range n.toNat).filter (fun v => decide (Nat.Prime v))) ∧
    ((List.range n.toNat).filter
      (fun v => decide (Nat.Prime v))).Pairwise (· < ·) ∧
    ((List.range n.toNat).filter (fun v => decide (Nat.Prime v))).Nodup := by
  have hnd : ((List.range n.toNat).filter
      (fun v => decide (Nat.Prime v))).Nodup :=
    (filter_range_sorted _ _).imp (fun h => Nat.ne_of_lt h)
  by_cases h2 : n ≤ 2
  · refine ⟨?_, ?_, ?_, filter_range_sorted _ _, hnd⟩
    · rw [segmented_sieve_small n ss hasCb (by omega) h2,
        sieve_of_eratosthenes_small n (by omega) h2]
      rfl
    · rw [parallel_sieve_small n (some nw) cpu ss hasCb (by omega) h2,
        sieve_of_eratosthenes_small n (by omega) h2]
      rfl
    · rw [sieve_of_eratosthenes_small n (by omega) h2]
      have hfil : (List.range n.toNat).filter
          (fun v => decide (Nat.Prime v)) = [] := by
        rw [List.filter_eq_nil_iff]
        intro v hv
        have := List.mem_range.mp hv
        simp only [decide_eq_true_eq]
        intro hp
        have := hp.two_le
        omega
      rw [hfil]
  · have hm : ((n.toNat : Nat) : Int) = n := Int.toNat_of_nonneg hn
    have hn2 : 2 < n.toNat := by omega
    refine ⟨?_, ?_, ?_, filter_range_sorted _ _, hnd⟩
    · rw [← hm, segmented_sieve_ok n.toNat ss hasCb hn2 hss,
        sieve_of_eratosthenes_ok n.toNat]
      rfl
    · rw [← hm, parallel_segmented_sieve_ok n.toNat ss nw cpu (some nw)
        hasCb hn2 hss hnw rfl, sieve_of_eratosthenes_ok n.toNat]
      rfl
    · conv_lhs => rw [← hm]
      exact sieve_of_eratosthenes_ok n.toNat

theorem C2_witness :
    0 ≤ (30 : Int) ∧ 1 ≤ 7 ∧ 1 ≤ 2 ∧
      (segmented_sieve 30 7 true).map Prod.fst = sieve_of_eratosthenes 30 ∧
      (parallel_segmented_sieve 30 (some 2) 4 7 true).map Prod.fst =
        sieve_of_eratosthenes 30 :=
  ⟨by decide, by decide, by decide,
    (C2_three_sieves_agree 30 7 2 4 true (by decide) (by decide)
      (by decide)).1,
    (C2_three_sieves_agree 30 7 2 4 true (by decide) (by decide)
      (by decide)).2.1⟩

/-- C3: given `high > 2` and a base-prime list consisting of odd primes and
covering every prime whose square is below `high`, the segment engine
`_sieve_segment_odd_only low high base_primes` returns exactly the ordered
primes in `[max(low, 2), high)`. -/
theorem C3_segment_engine (low high : Nat) (bp : List Nat) (hhigh : 2 < high)
    (hbp : ∀ p ∈ bp, Nat.Prime p ∧ 2 < p)
    (hcov : ∀ p, Nat.Prime p → p ≠ 2 → p * p < high → p ∈ bp) :
    _sieve_segment_odd_only low high bp =
      (List.range high).filter
        (fun v => decide (Nat.Prime v) && decide (max low 2 ≤ v)) ∧
    ((List.range high).filter
      (fun v => decide (Nat.Prime v) && decide (max low 2 ≤ v))).Pairwise
      (· < ·) := by
  refine ⟨?_, filter_range_sorted _ _⟩
  rw [_sieve_segment_odd_only_eq low high bp hbp hcov]
  apply List.filter_congr
  intro v _
  by_cases hp : Nat.Prime v
  · have h2 := hp.two_le
    rw [show decide (low ≤ v) = decide (max low 2 ≤ v) from
      decide_eq_decide.mpr (by omega)]
  · have hd : decide (Nat.Prime v) = false := decide_eq_false hp
    rw [hd, Bool.false_and, Bool.false_and]

theorem C3_witness :
    2 < 20 ∧
      _sieve_segment_odd_only 0 20 [3] =
        (List.range 20).filter
          (fun v => decide (Nat.Prime v) && decide (max 0 2 ≤ v)) :=
  ⟨by decide,
    (C3_segment_engine 0 20 [3] (by decide) (by decide)
      (by
        intro p hp h2 hlt
        have ha := hp.two_le
        have hb : p ≤ 4 := by nlinarith
        interval_cases p
        · exact absurd rfl h2
        · simp
        · exact absurd hp (by norm_num))).1⟩

/-- C4: `generate_primes` meets its known fixed points: `[2,3,5,7]` for
`n = 10`, the ten primes below 30 for `n = 30`, 9592 primes below 100000
with largest 99991, and 78498 primes below 1000000 with largest 999983. -/
theorem C4_generate_fixed_points : ∀ cpu : Nat,
    generate_primes 10 false true none cpu = .ok [2, 3, 5, 7] ∧
    generate_primes 30 false true none cpu =
      .ok [2, 3, 5, 7, 11, 13, 17, 19, 23, 29] ∧
    generate_primes 100000 false true none cpu =
      .ok ((List.range 100000).filter (fun v => decide (Nat.Prime v))) ∧
    ((List.range 100000).filter
      (fun v => decide (Nat.Prime v))).length = 9592 ∧
    ((List.range 100000).filter
      (fun v => decide (Nat.Prime v))).getLast? = some 99991 ∧
    generate_primes 1000000 false true none cpu =
      .ok ((List.range 1000000).filter (fun v => decide (Nat.Prime v))) ∧
    ((List.range 1000000).filter
      (fun v => decide (Nat.Prime v))).length = 78498 ∧
    ((List.range 1000000).filter
      (fun v => decide (Nat.Prime v))).getLast? = some 999983 := by
  intro cpu
  refine ⟨?_, ?_, ?_, count_1e5, last_1e5, ?_, count_1e6, last_1e6⟩
  · rw [show (10 : Int) = ((10 : Nat) : Int) from rfl,
      generate_primes_ok 10 (by omega) false true none cpu]
    exact congrArg Except.ok (by decide)
  · rw [show (30 : Int) = ((30 : Nat) : Int) from rfl,
      generate_primes_ok 30 (by omega) false true none cpu]
    exact congrArg Except.ok (by decide)
  · rw [show (100000 : Int) = ((100000 : Nat) : Int) from rfl,
      generate_primes_ok 100000 (by omega) false true none cpu]
  · rw [show (1000000 : Int) = ((1000000 : Nat) : Int) from rfl,
      generate_primes_ok 1000000 (by omega) false true none cpu]

/-- C6 counterexample: `num_workers` is NOT clamped to be at least 1.  With
`n = 10`, `segment_size = 10` and a supplied worker count of 0, the
effective count is `min 0 segments = 0` and the chunk-size division raises
`ZeroDivisionError`, while the same call with one worker succeeds. -/
theorem C6_counterexample :
    parallel_segmented_sieve 10 (some 0) 4 10 false =
      .error .zeroDivisionError ∧
    parallel_segmented_sieve 10 (some 1) 4 10 true =
      .ok ([2, 3, 5, 7], 1) := ⟨rfl, rfl⟩

/-- C6 (amended): the default worker count `max(1, cpu_count-1)` is at
least 1; for any supplied count `w ≥ 1` the effective count
`nw = min w segments` lies in `[1, segments]` (the clamp is from above
only — the lower bound holds because `w ≥ 1`); worker `i` receives the
chunk `[i*chunk_size, min((i+1)*chunk_size, segments))` with
`chunk_size = ceil(segments/nw)`; no created chunk starts at or beyond
`segments`; and the created chunks partition `[0, segments)` exactly. -/
theorem C6_amended_chunking (n ss w cpu segments nw cs : Nat)
    (hn : 2 < n) (hss : 1 ≤ ss) (hw : 1 ≤ w)
    (hseg : segments = (n + ss - 1) / ss)
    (hnwdef : nw = min w segments)
    (hcs : cs = (segments + nw - 1) / nw) :
    1 ≤ numWorkersDefault cpu ∧
    1 ≤ nw ∧ nw ≤ segments ∧
    workerChunks segments cs nw =
      (List.range ((segments + cs - 1) / cs)).map
        (fun i => (i * cs, min (i * cs + cs) segments)) ∧
    (∀ c ∈ workerChunks segments cs nw, c.1 < segments) ∧
    ((workerChunks segments cs nw).map
      (fun se => List.range' se.1 (se.2 - se.1))).flatten =
      List.range segments := by
  have hseg1 : 1 ≤ segments := by
    have hnnle : n ≤ (n + ss - 1) / ss * ss := ceil_div_mul_le n ss hss
    rw [hseg]
    rcases Nat.eq_zero_or_pos ((n + ss - 1) / ss) with h0 | h1
    · rw [h0, Nat.zero_mul] at hnnle
      omega
    · exact h1
  have hnw1 : 1 ≤ nw := by
    rw [hnwdef]
    exact le_min hw hseg1
  have hnwle : nw ≤ segments := by
    rw [hnwdef]
    exact min_le_right _ _
  have hsegle : segments ≤ cs * nw := by
    rw [hcs]
    exact ceil_div_mul_le segments nw hnw1
  have hcs1 : 1 ≤ cs := by
    rcases Nat.eq_zero_or_pos cs with h0 | h1
    · rw [h0, Nat.zero_mul] at hsegle
      omega
    · exact h1
  have hsegK : segments ≤ (segments + cs - 1) / cs * cs :=
    ceil_div_mul_le segments cs hcs1
  have hKle : (segments + cs - 1) / cs ≤ nw := by
    have h1 : cs * nw = nw * cs := Nat.mul_comm _ _
    have h2 : segments + cs - 1 ≤ cs - 1 + nw * cs := by omega
    have h3 : (segments + cs - 1) / cs ≤ (cs - 1 + nw * cs) / cs :=
      Nat.div_le_div_right h2
    have h4 : (cs - 1 + nw * cs) / cs = (cs - 1) / cs + nw :=
      Nat.add_mul_div_right _ _ (by omega)
    have h5 : (cs - 1) / cs = 0 := Nat.div_eq_of_lt (by omega)
    omega
  refine ⟨le_max_left 1 (cpu - 1), hnw1, hnwle, ?_, ?_, ?_⟩
  · rw [workerChunks_eq segments cs nw hcs1, min_eq_right hKle]
  · intro c hc
    rw [workerChunks_eq segments cs nw hcs1, min_eq_right hKle] at hc
    obtain ⟨i, hi, rfl⟩ := List.mem_map.mp hc
    have hiK := List.mem_range.mp hi
    exact (lt_ceil_iff cs segments i hcs1).mp hiK
  · rw [workerChunks_eq segments cs nw hcs1, min_eq_right hKle,
      List.map_map]
    have hcomp : ((fun se : Nat × Nat => List.range' se.1 (se.2 - se.1)) ∘
        (fun i => (i * cs, min (i * cs + cs) segments))) =
        (fun i => List.range' (i * cs)
          (min (i * cs + cs) segments - i * cs)) := rfl
    rw [hcomp, List.range_eq_range', chunksFlatten cs segments _ 0,
      Nat.zero_mul, Nat.zero_add, Nat.sub_zero, min_eq_right hsegK,
      List.range_eq_range']

theorem C6_amended_witness :
    2 < 10 ∧ 1 ≤ 3 ∧ 1 ≤ 2 ∧
      ((workerChunks 4 2 2).map
        (fun se => List.range' se.1 (se.2 - se.1))).flatten =
        List.range 4 :=
  ⟨by decide, by decide, by decide,
    (C6_amended_chunking 10 3 2 4 4 2 2 (by decide) (by decide) (by decide)
      rfl rfl rfl).2.2.2.2.2⟩

/-- C7: for `n > 2` with a progress callback attached, the sequential
segmented sieve reports exactly one 1-based index per segment (so the
deltas sum to the segment count `ceil(n/segment_size)`), and the parallel
path's shared-counter increments sum to exactly that segment count. -/
theorem C7_progress_totals (n ss w0 cpu : Nat) (nwOpt : Option Nat)
    (hn : 2 < n) (hss : 1 ≤ ss) (hw : 1 ≤ w0)
    (hmatch : (match nwOpt with
      | none => numWorkersDefault cpu
      | some k => k) = w0) :
    segmented_sieve (n : Int) ss true =
      .ok ((List.range n).filter (fun v => decide (Nat.Prime v)),
        (List.range ((n + ss - 1) / ss)).map (fun j => j + 1)) ∧
    ((List.range ((n + ss - 1) / ss)).map (fun j => j + 1)).length =
      (n + ss - 1) / ss ∧
    parallel_segmented_sieve (n : Int) nwOpt cpu ss true =
      .ok ((List.range n).filter (fun v => decide (Nat.Prime v)),
        (n + ss - 1) / ss) := by
  refine ⟨?_, by simp, ?_⟩
  · rw [segmented_sieve_ok n ss true hn hss, if_pos rfl]
  · rw [parallel_segmented_sieve_ok n ss w0 cpu nwOpt true hn hss hw hmatch,
      if_pos rfl]

theorem C7_witness :
    segmented_sieve 10 3 true = .ok ([2, 3, 5, 7], [1, 2, 3, 4]) ∧
      parallel_segmented_sieve 10 (some 2) 4 3 true =
        .ok ([2, 3, 5, 7], 4) := by
  have h := C7_progress_totals 10 3 2 4 (some 2) (by decide) (by decide)
    (by decide) rfl
  exact ⟨h.1.trans (congrArg Except.ok (by decide)),
    h.2.2.trans (congrArg Except.ok (by decide))⟩

/-- C8: the sequence returned by `generate_primes` is deterministic and
unaffected by progress reporting: with identical remaining arguments, the
result with a progress hook attached equals the result without one. -/
theorem C8_progress_noninterference (n : Int) (sp1 sp2 par : Bool)
    (force : Option ForceAlgorithm) (cpu : Nat) :
    generate_primes n sp1 par force cpu =
      generate_primes n sp2 par force cpu := by
  by_cases h0 : n < 0
  · rw [generate_primes_cases n sp1 par force cpu,
      generate_primes_cases n sp2 par force cpu, if_pos h0, if_pos h0]
  · by_cases h2 : n ≤ 2
    · rw [generate_primes_small n sp1 par force cpu h0 h2,
        generate_primes_small n sp2 par force cpu h0 h2]
    · have hm : ((n.toNat : Nat) : Int) = n := Int.toNat_of_nonneg (by omega)
      rw [← hm, generate_primes_ok n.toNat (by omega) sp1 par force cpu,
        generate_primes_ok n.toNat (by omega) sp2 par force cpu]

/-- C9: the base-prime list passed by both segmented drivers to the segment
engine consists of exactly the odd primes up to `isqrt n` (2 excluded, all
odd); including 2 would make the engine's first-odd-multiple computation
mark wrong cells, as witnessed at `low = 0`, `high = 20`, where base list
`[2, 3]` yields `[2, 3, 7, 11, 19]` instead of the primes below 20. -/
theorem C9_base_primes_invariant (n : Nat) :
    (∀ p, p ∈ base_primes_odd n ↔ Nat.Prime p ∧ 2 < p ∧ p ≤ isqrt n) ∧
    (∀ p ∈ base_primes_odd n, p % 2 = 1) ∧
    _sieve_segment_odd_only 0 20 [2, 3] = [2, 3, 7, 11, 19] ∧
    _sieve_segment_odd_only 0 20 [2, 3] ≠
      (List.range 20).filter (fun v => decide (Nat.Prime v)) := by
  have hchar : ∀ p, p ∈ base_primes_odd n ↔
      Nat.Prime p ∧ 2 < p ∧ p ≤ isqrt n := by
    intro p
    unfold base_primes_odd
    rw [sieve_of_eratosthenes_nat_eq, List.mem_filter, List.mem_filter,
      List.mem_range]
    simp only [decide_eq_true_eq]
    constructor
    · rintro ⟨⟨hlt, hp⟩, h2⟩
      exact ⟨hp, h2, by omega⟩
    · rintro ⟨hp, h2, hle⟩
      exact ⟨⟨by omega, hp⟩, h2⟩
  refine ⟨hchar, ?_, by decide, by decide⟩
  intro p hp
  obtain ⟨hp1, hp2, _⟩ := (hchar p).mp hp
  exact (Nat.Prime.eq_two_or_odd hp1).resolve_left (by omega)

/-- C10: both segmented drivers implicitly require `segment_size ≥ 1`: for
`n > 2` and `segment_size = 0` the segment-count division is unguarded and
the call fails with `ZeroDivisionError`, which is not the reported
invalid-argument (`ValueError`) condition. -/
theorem C10_zero_segment_size (n : Int) (hasCb : Bool) (cpu : Nat)
    (nwOpt : Option Nat) (hn : 2 < n) :
    segmented_sieve n 0 hasCb = .error .zeroDivisionError ∧
    parallel_segmented_sieve n nwOpt cpu 0 hasCb =
      .error .zeroDivisionError ∧
    segmented_sieve n 0 hasCb ≠ .error .valueError ∧
    parallel_segmented_sieve n nwOpt cpu 0 hasCb ≠ .error .valueError := by
  have h1 : segmented_sieve n 0 hasCb = .error .zeroDivisionError := by
    rw [segmented_sieve_cases, if_neg (show ¬ n < 0 by omega),
      if_neg (show ¬ n ≤ 2 by omega), if_pos rfl]
  have h2 : parallel_segmented_sieve n nwOpt cpu 0 hasCb =
      .error .zeroDivisionError := by
    rw [parallel_sieve_cases, if_neg (show ¬ n < 0 by omega),
      if_neg (show ¬ n ≤ 2 by omega), if_pos rfl]
  refine ⟨h1, h2, ?_, ?_⟩
  · rw [h1]
    simp
  · rw [h2]
    simp

theorem C10_witness :
    2 < (10 : Int) ∧
      segmented_sieve 10 0 true = .error .zeroDivisionError ∧
      parallel_segmented_sieve 10 none 4 0 true =
        .error .zeroDivisionError :=
  ⟨by decide, (C10_zero_segment_size 10 true 4 none (by decide)).1,
    (C10_zero_segment_size 10 true 4 none (by decide)).2.1⟩

theorem parallel_sieve_int_cases (n : Int) (nwOpt : Option Int) (cpu : Nat)
    (ss : Int) (cb : Bool) :
    parallel_segmented_sieve_int n nwOpt cpu ss cb =
      if n < 0 then .error .valueError
      else if n ≤ 2 then .ok ([], 0)
      else if ss = 0 then .error .zeroDivisionError
      else if min (match nwOpt with
          | none => ((numWorkersDefault cpu : Nat) : Int)
          | some k => k) (Int.fdiv (n + ss - 1) ss) = 0 then
        .error .zeroDivisionError
      else if min (match nwOpt with
          | none => ((numWorkersDefault cpu : Nat) : Int)
          | some k => k) (Int.fdiv (n + ss - 1) ss) < 0 then
        .error .valueError
      else .ok (parallelRun n.toNat ss.toNat (min (match nwOpt with
          | none => ((numWorkersDefault cpu : Nat) : Int)
          | some k => k) (Int.fdiv (n + ss - 1) ss)).toNat cb) := rfl

theorem segmented_int_pos (n ss : Int) (cb : Bool) (h0 : ¬ n < 0)
    (h2 : ¬ n ≤ 2) (h3 : ¬ ss = 0) (h4 : ¬ ss < 0) :
    segmented_sieve_int n ss cb = segmented_sieve n ss.toNat cb := by
  unfold segmented_sieve_int
  rw [if_neg h0, if_neg h2, if_neg h3, if_neg h4]

theorem segmented_int_error_iff (n ss : Int) (cb : Bool) (hss : 0 ≤ ss) :
    segmented_sieve_int n ss cb = .error .valueError ↔ n < 0 := by
  by_cases h0 : n < 0
  · simp [segmented_sieve_int, h0]
  · by_cases h2 : n ≤ 2
    · simp [segmented_sieve_int, h0, h2]
    · by_cases h3 : ss = 0
      · simp [segmented_sieve_int, h0, h2, h3]
      · rw [segmented_int_pos n ss cb h0 h2 h3 (by omega)]
        exact segmented_error_iff n ss.toNat cb

theorem parallel_int_tail_iff (n ss w0I : Int) (cb : Bool) (h0 : ¬ n < 0)
    (h2 : ¬ n ≤ 2) (hss : 0 ≤ ss) (hw0 : 0 ≤ w0I) :
    ((if min w0I (Int.fdiv (n + ss - 1) ss) = 0 then
        (Except.error PyError.zeroDivisionError :
          Except PyError (List Nat × Nat))
      else if min w0I (Int.fdiv (n + ss - 1) ss) < 0 then
        .error .valueError
      else .ok (parallelRun n.toNat ss.toNat
        (min w0I (Int.fdiv (n + ss - 1) ss)).toNat cb)) =
      .error .valueError ↔ n < 0) := by
  have hseg0 : 0 ≤ Int.fdiv (n + ss - 1) ss :=
    Int.fdiv_nonneg (by omega) (by omega)
  have hmin0 : 0 ≤ min w0I (Int.fdiv (n + ss - 1) ss) := le_min hw0 hseg0
  by_cases h4 : min w0I (Int.fdiv (n + ss - 1) ss) = 0
  · rw [if_pos h4]
    simp [h0]
  · rw [if_neg h4, if_neg (not_lt.mpr hmin0)]
    simp [h0]

theorem parallel_int_error_iff (n ss w0I : Int) (cpu : Nat)
    (nwOptI : Option Int) (cb : Bool) (hss : 0 ≤ ss)
    (hmatch : (match nwOptI with
      | none => ((numWorkersDefault cpu : Nat) : Int)
      | some k => k) = w0I)
    (hw0 : 0 ≤ w0I) :
    parallel_segmented_sieve_int n nwOptI cpu ss cb = .error .valueError ↔
      n < 0 := by
  by_cases h0 : n < 0
  · rw [parallel_sieve_int_cases, if_pos h0]
    simp [h0]
  · by_cases h2 : n ≤ 2
    · rw [parallel_sieve_int_cases, if_neg h0, if_pos h2]
      simp [h0]
    · by_cases h3 : ss = 0
      · rw [parallel_sieve_int_cases, if_neg h0, if_neg h2, if_pos h3]
        simp [h0]
      · rcases nwOptI with _ | k
        · rw [parallel_sieve_int_cases, if_neg h0, if_neg h2, if_neg h3]
          show (if min ((numWorkersDefault cpu : Nat) : Int)
              (Int.fdiv (n + ss - 1) ss) = 0 then
              Except.error PyError.zeroDivisionError
            else if min ((numWorkersDefault cpu : Nat) : Int)
              (Int.fdiv (n + ss - 1) ss) < 0 then
              .error .valueError
            else .ok (parallelRun n.toNat ss.toNat
              (min ((numWorkersDefault cpu : Nat) : Int)
                (Int.fdiv (n + ss - 1) ss)).toNat cb)) =
            .error .valueError ↔ n < 0
          have hmatch2 : ((numWorkersDefault cpu : Nat) : Int) = w0I := hmatch
          rw [hmatch2]
          exact parallel_int_tail_iff n ss w0I cb h0 h2 hss hw0
        · rw [parallel_sieve_int_cases, if_neg h0, if_neg h2, if_neg h3]
          show (if min k (Int.fdiv (n + ss - 1) ss) = 0 then
              Except.error PyError.zeroDivisionError
            else if min k (Int.fdiv (n + ss - 1) ss) < 0 then
              .error .valueError
            else .ok (parallelRun n.toNat ss.toNat
              (min k (Int.fdiv (n + ss - 1) ss)).toNat cb)) =
            .error .valueError ↔ n < 0
          have hmatch2 : k = w0I := hmatch
          rw [hmatch2]
          exact parallel_int_tail_iff n ss w0I cb h0 h2 hss hw0

/-- C5 counterexample: the "invalid-argument error only if n < 0" direction
is false in the integer-typed source: with `n = 10 ≥ 0`,
`segmented_sieve(10, -3)` raises `ValueError` from `bytearray(-3)`
(line 245), and with `n = 100 ≥ 0`,
`parallel_segmented_sieve(100, num_workers=-1, segment_size=10)` raises
uncaught `ValueError` from `Pool(processes=-1)` (line 348). -/
theorem C5_counterexample :
    (0 : Int) ≤ 10 ∧
      segmented_sieve_int 10 (-3) false = .error .valueError ∧
      (0 : Int) ≤ 100 ∧
        parallel_segmented_sieve_int 100 (some (-1)) 4 10 false =
          .error .valueError :=
  ⟨by decide, rfl, by decide, rfl⟩

/-- C5 (amended): restricted to a nonnegative `segment_size` and a
nonnegative supplied worker count (or the default), each of
`generate_primes`, `sieve_of_eratosthenes`, `segmented_sieve` and
`parallel_segmented_sieve` fails with the invalid-argument error
(`ValueError`) exactly when `n < 0`, and returns the empty sequence
without failing for `0 ≤ n ≤ 2`.  The restriction is necessary: for
`n > 2` a negative `segment_size` makes `segmented_sieve` raise
`ValueError` from `bytearray(segment_size)`, and a negative `num_workers`
makes `parallel_segmented_sieve` raise uncaught `ValueError` from
`Pool(processes=num_workers)`, both with `n ≥ 0`. -/
theorem C5_error_handling_amended (n ss w0I : Int) (sp par hasCb : Bool)
    (force : Option ForceAlgorithm) (cpu : Nat) (nwOptI : Option Int)
    (hss : 0 ≤ ss)
    (hmatch : (match nwOptI with
      | none => ((numWorkersDefault cpu : Nat) : Int)
      | some k => k) = w0I)
    (hw0 : 0 ≤ w0I) :
    (generate_primes n sp par force cpu = .error .valueError ↔ n < 0) ∧
    (sieve_of_eratosthenes n = .error .valueError ↔ n < 0) ∧
    (segmented_sieve_int n ss hasCb = .error .valueError ↔ n < 0) ∧
    (parallel_segmented_sieve_int n nwOptI cpu ss hasCb =
      .error .valueError ↔ n < 0) ∧
    (0 ≤ n → n ≤ 2 →
      generate_primes n sp par force cpu = .ok [] ∧
      sieve_of_eratosthenes n = .ok [] ∧
      segmented_sieve_int n ss hasCb = .ok ([], []) ∧
      parallel_segmented_sieve_int n nwOptI cpu ss hasCb = .ok ([], 0)) ∧
    (2 < n → ∀ ssNeg : Int, ssNeg < 0 →
      segmented_sieve_int n ssNeg hasCb = .error .valueError) ∧
    (2 < n → 0 < ss → ∀ kNeg : Int, kNeg < 0 →
      parallel_segmented_sieve_int n (some kNeg) cpu ss hasCb =
        .error .valueError) := by
  refine ⟨generate_primes_error_iff n sp par force cpu, sieve_error_iff n,
    segmented_int_error_iff n ss hasCb hss,
    parallel_int_error_iff n ss w0I cpu nwOptI hasCb hss hmatch hw0,
    ?_, ?_, ?_⟩
  · intro h0 h2
    refine ⟨generate_primes_small n sp par force cpu (by omega) h2,
      sieve_of_eratosthenes_small n (by omega) h2, ?_, ?_⟩
    · unfold segmented_sieve_int
      rw [if_neg (by omega), if_pos h2]
    · rw [parallel_sieve_int_cases, if_neg (by omega), if_pos h2]
  · intro hn2 ssNeg hneg
    unfold segmented_sieve_int
    rw [if_neg (by omega), if_neg (by omega),
      if_neg (show ¬ ssNeg = 0 by omega), if_pos hneg]
  · intro hn2 hsspos kNeg hkneg
    rw [parallel_sieve_int_cases n (some kNeg) cpu ss hasCb,
      if_neg (by omega), if_neg (by omega),
      if_neg (show ¬ ss = 0 by omega)]
    show (if min kNeg (Int.fdiv (n + ss - 1) ss) = 0 then
          Except.error PyError.zeroDivisionError
        else if min kNeg (Int.fdiv (n + ss - 1) ss) < 0 then
          .error .valueError
        else .ok (parallelRun n.toNat ss.toNat
          (min kNeg (Int.fdiv (n + ss - 1) ss)).toNat hasCb)) =
        .error .valueError
    have hle : min kNeg (Int.fdiv (n + ss - 1) ss) ≤ kNeg :=
      min_le_left _ _
    rw [if_neg (by omega), if_pos (by omega)]

theorem C5_amended_witness :
    segmented_sieve_int 1 5 false = .ok ([], []) ∧
      segmented_sieve_int (-3) 5 false = .error .valueError := by
  have h1 := C5_error_handling_amended 1 5 ((numWorkersDefault 4 : Nat) : Int)
    false true false none 4 none (by decide) rfl (by decide)
  have h2 := C5_error_handling_amended (-3) 5
    ((numWorkersDefault 4 : Nat) : Int) false true false none 4 none
    (by decide) rfl (by decide)
  exact ⟨(h1.2.2.2.2.1 (by decide) (by decide)).2.2.1,
    h2.2.2.1.mpr (by decide)⟩
